import Mathlib

/-!
# poc-partitioning: seeder and reader benchmarks

A shallow embedding of the two Go programs

* `db-benchmark/seeder/mysql/main.go` (batch partitioning, latency accumulator),
* `db-benchmark/reader/mysql/main.go` (read workload, percentile estimator),

followed by theorems about them.

Conventions of the embedding.

* Go `int` is `Int`, a value in `[-2 ^ 63, 2 ^ 63)`.  The sums `currIdx + batchRow` of the
  segment loop wrap around as 64-bit sums do (`wrapInt64`); the counter `totalOp++` is
  taken without wrap-around.
* `float64` samples and prices are exact rationals; a `float64` *result* that may
  be not-a-number is an `F64`.  The rounding of the index expression of the percentile
  estimator is modelled in `calculatePercentileFloat` (`roundFloat64`); elsewhere
  rounding is not modelled.
* A Go panic is `none` (or `Fault.panic`); an unbounded `for` loop takes fuel and
  reports `Fault.fuel` when it is exhausted.
* Calls to `math/rand` and to the clock are arguments (oracles) of the function
  that makes them; the database call is a no-op that succeeds.
-/

/-! ## Shared helpers -/

/-- Result of a `float64` computation: not-a-number, an infinity, or a finite value. -/
inductive F64 where
  | nan
  | posInf
  | negInf
  | fin (q : ℚ)
deriving DecidableEq, Repr

/-- The comparison `a <= b` of two `float64` values: false as soon as one is not-a-number. -/
def F64.le : F64 → F64 → Bool
  | F64.nan, _ => false
  | _, F64.nan => false
  | F64.negInf, _ => true
  | _, F64.posInf => true
  | F64.posInf, _ => false
  | _, F64.negInf => false
  | F64.fin a, F64.fin b => decide (a ≤ b)

/-- Division `a / b` of two finite `float64` values whose divisor is not negative zero:
`0 / 0` is not-a-number and `a / 0` is an infinity carrying the sign of `a`. -/
def divFloat (a b : ℚ) : F64 :=
  if b = 0 then
    if a = 0 then F64.nan else if 0 < a then F64.posInf else F64.negInf
  else F64.fin (a / b)

/-- Rounding of a rational to the nearest integer, a tie going to the even one. -/
def roundHalfEven (m : ℚ) : Int :=
  let f := ⌊m⌋
  if m - f < 1 / 2 then f
  else if 1 / 2 < m - f then f + 1
  else if f % 2 = 0 then f else f + 1

/-- The `float64` value nearest to `q` (IEEE 754 binary64, round to nearest, ties to even):
the multiple of the unit in the last place `2 ^ (e - 52)` nearest to `q`, where `2 ^ e` is the
power of two at or below `|q|` and `e` is at least `-1022` (subnormals).  Overflow to an
infinity, which starts near `2 ^ 1024`, is not modelled. -/
def roundFloat64 (q : ℚ) : ℚ :=
  let e := max (Int.log 2 |q|) (-1022)
  let ulp : ℚ := (2 : ℚ) ^ (e - 52)
  (roundHalfEven (q / ulp) : ℚ) * ulp

/-- Value of a non-empty run of decimal digits. -/
def digitsValue (ds : List Char) : Nat :=
  ds.foldl (fun acc c => 10 * acc + (c.toNat - 48)) 0

/-- The function `strconv.Atoi`: the parsed value and whether the error is nil.  A malformed
input yields `0`, a number out of range the nearest 64-bit bound. -/
def Atoi (s : List Char) : Int × Bool :=
  let neg := match s with
    | '-' :: _ => true
    | _ => false
  let ds := match s with
    | '-' :: r => r
    | '+' :: r => r
    | _ => s
  if ds = [] ∨ ¬ ds.all Char.isDigit then (0, false)
  else
    let v : Int := if neg then -(digitsValue ds : Int) else (digitsValue ds : Int)
    if v < -(2 ^ 63 : Int) then (-(2 ^ 63 : Int), false)
    else if (2 ^ 63 : Int) ≤ v then ((2 ^ 63 : Int) - 1, false)
    else (v, true)

/-- The byte slice `s[n:]` of a string given by its characters: `none` when the string
is shorter than `n` bytes or when byte `n` falls inside a multi-byte character (the
remainder is then not a number and the caller fails all the same). -/
def dropBytes : Nat → List Char → Option (List Char)
  | 0, cs => some cs
  | _ + 1, [] => none
  | n + 1, c :: cs =>
    if c.utf8Size ≤ n + 1 then dropBytes (n + 1 - c.utf8Size) cs else none

/-- The slice expression `xs[lo:hi]`, which panics unless `0 ≤ lo ≤ hi ≤ len(xs)`
(the capacity of the slice is taken equal to its length). -/
def goSlice {α : Type} (xs : List α) (lo hi : Int) : Option (List α) :=
  if 0 ≤ lo ∧ lo ≤ hi ∧ hi ≤ (xs.length : Int) then
    some ((xs.drop lo.toNat).take (hi - lo).toNat)
  else none

/-- The value a 64-bit signed sum or product takes: the exact result wrapped into
`[-2 ^ 63, 2 ^ 63)`. -/
def wrapInt64 (x : Int) : Int :=
  (x + 2 ^ 63) % 2 ^ 64 - 2 ^ 63

/-- Why a run produced no result. -/
inductive Fault where
  | panic
  | fuel
deriving DecidableEq, Repr

/-! ## Seeder (`db-benchmark/seeder/mysql/main.go`) -/

namespace Seeder

/-- The fields of `LatencyMetric` guarded by its mutex. -/
structure LatencyMetric where
  cummulativeLatency : ℚ
  totalOp : Int
  maxLatency : ℚ
deriving DecidableEq, Repr

/-- The metric as `main` creates it: every field zero. -/
def LatencyMetric.zero : LatencyMetric := ⟨0, 0, 0⟩

/-- The locked block of a task body (`distribute` lines 444-455, `genRandomDummyData` lines
376-387), run with the measured latency in milliseconds. -/
def record (latencyMetric : LatencyMetric) (latencyMilis : ℚ) : LatencyMetric :=
  let m1 := { latencyMetric with totalOp := latencyMetric.totalOp + 1 }
  let m2 := { m1 with cummulativeLatency := m1.cummulativeLatency + latencyMilis }
  if m2.maxLatency < latencyMilis then { m2 with maxLatency := latencyMilis } else m2

/-- The state after the task bodies have run one after the other with these latencies. -/
def recordAll (ds : List ℚ) : LatencyMetric :=
  ds.foldl record LatencyMetric.zero

/-- One row of the destination table. -/
structure UserData where
  UserID : Int
  AccNo : String
  UserSidComplete : String
  PortoDate : String
  PortoStockCode : String
  PortoStockQty : ℚ
  PortoLastPrice : ℚ
  PortoAvgPrice : ℚ
  PortoAmount : ℚ
  HasCredit : Bool
deriving DecidableEq, Repr

/-- The package variable `portoDate`. -/
def portoDate : String := "2023-05-31T00:00:00Z"

/-- One segment of the account corpus. -/
structure portfolioGenData where
  stockCode : String
  startIdx : Int
  endIdx : Int
  lastPrice : ℚ
  genAvgPriceMin : ℚ
  genAvgPriceMax : ℚ
deriving DecidableEq, Repr

/-- The function `genRandomFloat`, with `u` the value `rand.Float64()` returned. -/
def genRandomFloat (u : ℚ) (min max : ℚ) : ℚ :=
  min + u * (max - min)

/-- The function `genRandomInt`, with `r` the value `rand.Intn(max-min+1)` returned. -/
def genRandomInt (r : Int) (min _max : Int) : Int :=
  r + min

/-- The function `gen2PercentBoolTrue`, with `randomNum` the value `rand.Intn(100)` returned. -/
def gen2PercentBoolTrue (randomNum : Int) : Bool :=
  let chance : Int := 2
  decide (randomNum < chance)

/-- The three random draws `portfolioFromCsv` makes for one record, in call order. -/
structure SegDraws where
  lastPrice : ℚ
  avgPriceMin : ℚ
  avgPriceMax : ℚ

/-- The random draws `distribute` makes for one row, in call order. -/
structure RowDraws where
  qty : ℚ
  avgPrice : ℚ
  amount : ℚ
  credit : Int

/-- The random draws `genRandomDummyData` makes for one row, in call order. -/
structure FillDraws where
  stock : Int
  qty : ℚ
  lastPrice : ℚ
  avgPrice : ℚ
  amount : ℚ
  credit : Int

/-- The loop body of `portfolioFromCsv` for one record; `none` when `rec[0]`, `rec[2]` or
`rec[3]` is out of range.  The errors of `Atoi` are dropped, as in the source. -/
def portfolioOfRecord (rec : List String) (d : SegDraws) : Option portfolioGenData :=
  match rec with
  | c0 :: _ :: c2 :: c3 :: _ =>
    let stockCode := c0
    let startIdx := (Atoi c2.toList).1
    let endIdx := (Atoi c3.toList).1
    let lastPrice := genRandomFloat d.lastPrice 3000 5000
    let genAvgPriceMin := genRandomFloat d.avgPriceMin 3000 7000
    let genAvgPriceMax := genRandomFloat d.avgPriceMax 1000 3000
    some ⟨stockCode, startIdx, endIdx, lastPrice, genAvgPriceMin, genAvgPriceMax⟩
  | _ => none

/-- The loop of `portfolioFromCsv` over the records from index `i` on. -/
def portfolioLoop (draws : Nat → SegDraws) : Nat → List (List String) → Option (List portfolioGenData)
  | _, [] => some []
  | i, rec :: rest =>
    match portfolioOfRecord rec (draws i) with
    | none => none
    | some p =>
      match portfolioLoop draws (i + 1) rest with
      | none => none
      | some ps => some (p :: ps)

/-- The function `portfolioFromCsv` on the records read from the file; `draws i` are the
random draws made for record `i`. -/
def portfolioFromCsv (records : List (List String)) (draws : Nat → SegDraws) :
    Option (List portfolioGenData) :=
  portfolioLoop draws 0 records

/-- The statement `uid, err := strconv.Atoi(accNo[10:])` followed by the panic on error. -/
def userId (accNo : String) : Option Int :=
  match dropBytes 10 accNo.toList with
  | none => none
  | some rest => if (Atoi rest).2 then some (Atoi rest).1 else none

/-- The row `distribute` builds for one account of segment `p`. -/
def segmentRow (p : portfolioGenData) (uid : Int) (accNo : String) (d : RowDraws) : UserData :=
  { UserID := uid
    AccNo := accNo
    UserSidComplete := accNo
    PortoDate := portoDate
    PortoStockCode := p.stockCode
    PortoStockQty := genRandomFloat d.qty 1000000 2000000
    PortoLastPrice := p.lastPrice
    PortoAvgPrice := genRandomFloat d.avgPrice p.genAvgPriceMin p.genAvgPriceMax
    PortoAmount := genRandomFloat d.amount p.genAvgPriceMin p.genAvgPriceMax
    HasCredit := gen2PercentBoolTrue d.credit }

/-- The inner loop of `distribute` over `accNos[currIdx:endIdx]`; the first argument is the
position in `accNos` of the head of the list, `draw` gives the draws of the row at a position. -/
def segmentRows (p : portfolioGenData) (draw : Int → RowDraws) :
    Int → List String → Option (List UserData)
  | _, [] => some []
  | i, accNo :: rest =>
    match userId accNo with
    | none => none
    | some uid =>
      match segmentRows p draw (i + 1) rest with
      | none => none
      | some rows => some (segmentRow p uid accNo (draw i) :: rows)

/-- The `for { ... }` loop of `distribute` for segment `p`, entered with the given `currIdx`
and `endIdx`; `submitted` are the batches handed to `worker.Submit` so far. -/
def segmentLoop (accNos : List String) (batchRow : Int) (p : portfolioGenData)
    (draw : Int → RowDraws) :
    Nat → Int → Int → List (List UserData) → Except Fault (List (List UserData))
  | 0, _, _, _ => .error Fault.fuel
  | fuel + 1, currIdx, endIdx, submitted =>
    let lastIter := decide (endIdx > p.endIdx)
    let endIdx := if endIdx > p.endIdx then p.endIdx else endIdx
    match goSlice accNos currIdx endIdx with
    | none => .error Fault.panic
    | some part =>
      match segmentRows p draw currIdx part with
      | none => .error Fault.panic
      | some userDatas =>
        let submitted := submitted ++ [userDatas]
        if lastIter then .ok submitted
        else
          let currIdx := wrapInt64 (currIdx + batchRow)
          let endIdx := wrapInt64 (currIdx + batchRow)
          segmentLoop accNos batchRow p draw fuel currIdx endIdx submitted

/-- The body of `for _, p := range pfolios` in `distribute`: the batches submitted for `p`. -/
def distributeSegment (fuel : Nat) (accNos : List String) (batchRow : Int)
    (p : portfolioGenData) (draw : Int → RowDraws) : Except Fault (List (List UserData)) :=
  let currIdx := p.startIdx
  let endIdx := wrapInt64 (currIdx + batchRow)
  segmentLoop accNos batchRow p draw fuel currIdx endIdx []

/-- The loop of `distribute` over the segments from index `k` on. -/
def distributeLoop (fuel : Nat) (accNos : List String) (batchRow : Int)
    (draw : Nat → Int → RowDraws) :
    Nat → List portfolioGenData → List (List UserData) → Except Fault (List (List UserData))
  | _, [], submitted => .ok submitted
  | k, p :: rest, submitted =>
    match distributeSegment fuel accNos batchRow p (draw k) with
    | .error e => .error e
    | .ok batches => distributeLoop fuel accNos batchRow draw (k + 1) rest (submitted ++ batches)

/-- The function `distribute`: the batches submitted to the worker pool, in submission order.
`draw k i` are the draws for the row at position `i` of segment `k`; `fuel` bounds the
iterations of each segment loop. -/
def distribute (fuel : Nat) (pfolios : List portfolioGenData) (accNos : List String)
    (batchRow : Int) (draw : Nat → Int → RowDraws) : Except Fault (List (List UserData)) :=
  distributeLoop fuel accNos batchRow draw 0 pfolios []

/-- The expression `numIter` of `genRandomDummyData`; `none` is the division by zero. -/
def numIter (amount batchRow : Int) : Option Int :=
  if batchRow = 0 then none
  else some (Int.tdiv amount batchRow + Int.tmod amount batchRow)

/-- The row `genRandomDummyData` builds. -/
def fillRow (uid : Int) (accNo : String) (d : FillDraws) : UserData :=
  { UserID := uid
    AccNo := accNo
    UserSidComplete := accNo
    PortoDate := portoDate
    PortoStockCode := "OTH" ++ toString (genRandomInt d.stock 200 500)
    PortoStockQty := genRandomFloat d.qty 1000000 2000000
    PortoLastPrice := genRandomFloat d.lastPrice 1000 5000
    PortoAvgPrice := genRandomFloat d.avgPrice 1000 5000
    PortoAmount := genRandomFloat d.amount 1000 5000
    HasCredit := gen2PercentBoolTrue d.credit }

/-- The body of the outer loop of `genRandomDummyData` for index `i`: the batch submitted;
`none` is a panic (`i%accLen` with an empty pool, a malformed identifier). -/
def fillBatch (accNos : List String) (batchRow : Int) (draw : Nat → Nat → FillDraws)
    (i : Nat) : Option (List UserData) :=
  let accLen := accNos.length
  if accLen = 0 then none
  else
    match accNos[i % accLen]? with
    | none => none
    | some accNo =>
      match userId accNo with
      | none => none
      | some uid =>
        some ((List.range batchRow.toNat).map (fun j => fillRow uid accNo (draw i j)))

/-- The outer loop of `genRandomDummyData` over the indices `is`. -/
def fillLoop (accNos : List String) (batchRow : Int) (draw : Nat → Nat → FillDraws) :
    List Nat → List (List UserData) → Option (List (List UserData))
  | [], submitted => some submitted
  | i :: rest, submitted =>
    match fillBatch accNos batchRow draw i with
    | none => none
    | some userDatas => fillLoop accNos batchRow draw rest (submitted ++ [userDatas])

/-- The function `genRandomDummyData`: the batches submitted, in submission order.
`draw i j` are the draws for row `j` of batch `i`. -/
def genRandomDummyData (accNos : List String) (amount batchRow : Int)
    (draw : Nat → Nat → FillDraws) : Option (List (List UserData)) :=
  match numIter amount batchRow with
  | none => none
  | some n => fillLoop accNos batchRow draw (List.range n.toNat) []

/-- The control state of the `for { ... }` loop of `distribute` alone: the pairs
`(currIdx, endIdx)` at which successive iterations evaluate `accNos[currIdx:endIdx]`, up to
the iteration that sets `lastIter` (or until the fuel runs out). -/
def segmentBounds (batchRow : Int) (p : portfolioGenData) : Nat → Int → Int → List (Int × Int)
  | 0, _, _ => []
  | fuel + 1, currIdx, endIdx =>
    let lastIter := decide (endIdx > p.endIdx)
    let endIdx := if endIdx > p.endIdx then p.endIdx else endIdx
    (currIdx, endIdx) ::
      (if lastIter then []
       else
        let currIdx := wrapInt64 (currIdx + batchRow)
        let endIdx := wrapInt64 (currIdx + batchRow)
        segmentBounds batchRow p fuel currIdx endIdx)

/-- The slice bounds of the iterations of the segment loop as `distribute` enters it for
segment `p`: `currIdx := p.startIdx`, `endIdx := currIdx + batchRow`. -/
def distributeBounds (batchRow : Int) (p : portfolioGenData) (fuel : Nat) : List (Int × Int) :=
  segmentBounds batchRow p fuel p.startIdx (wrapInt64 (p.startIdx + batchRow))

/-- The loop body of `distribute` run at each of the given slice bounds in turn: slice,
build the rows, submit. -/
def runBounds (accNos : List String) (p : portfolioGenData) (draw : Int → RowDraws) :
    List (Int × Int) → List (List UserData) → Except Fault (List (List UserData))
  | [], submitted => .ok submitted
  | (currIdx, endIdx) :: rest, submitted =>
    match goSlice accNos currIdx endIdx with
    | none => .error Fault.panic
    | some part =>
      match segmentRows p draw currIdx part with
      | none => .error Fault.panic
      | some userDatas => runBounds accNos p draw rest (submitted ++ [userDatas])

/-! ### Concrete inputs -/

/-- Ten account identifiers. -/
def accNos10 : List String :=
  ["ACC0000000001", "ACC0000000002", "ACC0000000003", "ACC0000000004", "ACC0000000005",
   "ACC0000000006", "ACC0000000007", "ACC0000000008", "ACC0000000009", "ACC0000000010"]

/-- The largest value of a Go `int` on a 64-bit platform. -/
def maxInt64 : Int := 9223372036854775807

/-- A segment over `[startIdx, endIdx)` with fixed prices. -/
def gotoSegment (startIdx endIdx : Int) : portfolioGenData :=
  ⟨"GOTO", startIdx, endIdx, 4000, 2000, 6000⟩

/-- Row draws that are all the midpoint `1/2` (and a credit draw of 50). -/
def midRowDraws : Int → RowDraws := fun _ => ⟨1 / 2, 1 / 2, 1 / 2, 50⟩

/-- Fill-mode draws that are all the midpoint `1/2` (stock draw 100, credit draw 50). -/
def midFillDraws : Nat → Nat → FillDraws := fun _ _ => ⟨100, 1 / 2, 1 / 2, 1 / 2, 1 / 2, 50⟩

/-- Segment draws that are all the midpoint `1/2`. -/
def midSegDraws : Nat → SegDraws := fun _ => ⟨1 / 2, 1 / 2, 1 / 2⟩

/-- One record of the stock data file: stock code, a column the code skips, start, end. -/
def gotoRecord : List String := ["GOTO", "1", "0", "1"]

/-- The segment `portfolioFromCsv` makes of `gotoRecord` under `midSegDraws`. -/
def gotoFromCsv : portfolioGenData :=
  ⟨"GOTO", 0, 1, genRandomFloat (1 / 2) 3000 5000, genRandomFloat (1 / 2) 3000 7000,
    genRandomFloat (1 / 2) 1000 3000⟩

/-- The row `distribute` builds for the first account of `gotoFromCsv` under `midRowDraws`. -/
def gotoRow : UserData := segmentRow gotoFromCsv 1 "ACC0000000001" (midRowDraws 0)

end Seeder

/-! ## Reader (`db-benchmark/reader/mysql/main.go`) -/

namespace Reader

/-- The fields of `rawOverallMetric` guarded by its mutex. -/
structure rawOverallMetric where
  durations : List ℚ
  analyzeResult : List ℚ
deriving DecidableEq, Repr

/-- The statistics `runEach` returns. -/
structure roundtripResultMetric where
  avg : F64
  p50 : F64
  p90 : F64
  p99 : F64
  avgExplainAnalyze : F64
  p50ExplainAnalyze : F64
  p90ExplainAnalyze : F64
  p99ExplainAnalyze : F64
deriving DecidableEq, Repr

/-- The parameters of one run that the sampling depends on. -/
structure analyzeParam where
  routineCount : Int
  samplingCount : Int
  withExec : Bool

/-- The function `calculateAverage`. -/
def calculateAverage (values : List ℚ) : F64 :=
  let sum := values.foldl (fun sum val => sum + val) 0
  divFloat sum (values.length : ℚ)

/-- The function `calculatePercentile`, its index expression `N * percentile / 100` taken
exactly, without rounding (`calculatePercentileFloat` below rounds as the source does, and
agrees with this one at every whole-number rank, among them 0, 50, 90, 99 and 100, for fewer
than `2 ^ 46` samples).  `none` is the index-out-of-range panic of `values[index-1]`
(reached only with a negative index). -/
def calculatePercentile (values : List ℚ) (percentile : ℚ) : Option F64 :=
  if values.length = 0 then some F64.nan
  else
    let index : Int := ⌈(values.length : ℚ) * percentile / 100⌉
    if index = 0 then (values[0]?).map F64.fin
    else if index ≥ (values.length : Int) then (values[values.length - 1]?).map F64.fin
    else if index - 1 < 0 then none
    else (values[(index - 1).toNat]?).map F64.fin

/-- The function `calculatePercentile` with the index computed as the source computes it,
in `float64`: `float64(len(values))`, the product with `percentile` and the quotient by
`100.0` are each rounded to `float64` before `math.Ceil` and the conversion to `int`.
`percentile` is a `float64` value.  This is the function `runEach` calls
(`reduceMetric`). -/
def calculatePercentileFloat (values : List ℚ) (percentile : ℚ) : Option F64 :=
  if values.length = 0 then some F64.nan
  else
    let index : Int :=
      ⌈roundFloat64 (roundFloat64 (roundFloat64 (values.length : ℚ) * percentile) / 100)⌉
    if index = 0 then (values[0]?).map F64.fin
    else if index ≥ (values.length : Int) then (values[values.length - 1]?).map F64.fin
    else if index - 1 < 0 then none
    else (values[(index - 1).toNat]?).map F64.fin

/-- The function `sort.Float64s` on finite values. -/
def sortFloat64s (xs : List ℚ) : List ℚ :=
  xs.insertionSort (fun a b => a ≤ b)

/-- The local variable `stocks` of `runEach`. -/
def stocks : List String :=
  ["GOTO", "BBCA", "BBRI", "ADRO", "ANTM", "SIDO", "BUMI", "BMRI", "TLKM", "BRIS"]

/-- The sampling closure of a worker, called with `iteration` operations to time;
`micros i` is what `time.Since(start).Microseconds()` returns for operation `i`.
Nothing is ever appended to the second result. -/
def sampleStock (micros : Nat → Int) (iteration : Int) : List ℚ × List ℚ :=
  let execDuration := (List.range iteration.toNat).map (fun i => (micros i : ℚ) / 1000)
  let result : List ℚ := []
  (execDuration, result)

/-- What one worker merges into the shared metric, one pair per stock in the order of
`stocks`: the sorted samples of that stock. `micros s i` is the duration of operation `i`
on stock number `s`. -/
def workerChunks (opt : analyzeParam) (micros : Nat → Nat → Int) : List (List ℚ × List ℚ) :=
  (List.range stocks.length).map (fun s =>
    let r := sampleStock (micros s) opt.samplingCount
    (sortFloat64s r.1, sortFloat64s r.2))

/-- The samples one worker records over its whole run. -/
def workerDurations (opt : analyzeParam) (micros : Nat → Nat → Int) : List ℚ :=
  ((workerChunks opt micros).map Prod.fst).flatten

/-- State of the merge: the shared metric and, per worker, what it has yet to merge. -/
structure MergeState where
  met : rawOverallMetric
  pending : List (List (List ℚ × List ℚ))

/-- The state when the start signal fires: `routineCount` workers, nothing merged. -/
def MergeState.init (opt : analyzeParam) (micros : Nat → Nat → Nat → Int) : MergeState :=
  { met := ⟨[], []⟩
    pending := (List.range opt.routineCount.toNat).map (fun w => workerChunks opt (micros w)) }

/-- Worker `w` runs its locked block (lines 312-315) once; no effect when it has finished. -/
def mergeStep (st : MergeState) (w : Nat) : MergeState :=
  match st.pending[w]? with
  | some (c :: rest) =>
    { met := ⟨st.met.durations ++ c.1, st.met.analyzeResult ++ c.2⟩
      pending := st.pending.set w rest }
  | _ => st

/-- The state after the locked blocks have run in the order `sched` gives. -/
def runMerges (opt : analyzeParam) (micros : Nat → Nat → Nat → Int) (sched : List Nat) :
    MergeState :=
  sched.foldl mergeStep (MergeState.init opt micros)

/-- Every worker has called `wg.Done()`: `wg.Wait()` returns. -/
def MergeState.allDone (st : MergeState) : Bool :=
  st.pending.all (fun l => l.isEmpty)

/-- The reduction at the end of `runEach` (lines 327-354); the percentiles are computed as
the source computes them, with the index in `float64`. -/
def reduceMetric (met : rawOverallMetric) : Option roundtripResultMetric :=
  let overallExecDurs := sortFloat64s met.durations
  let overallAnalyzeDurs := sortFloat64s met.analyzeResult
  let avg := calculateAverage overallExecDurs
  match calculatePercentileFloat overallExecDurs 50,
    calculatePercentileFloat overallExecDurs 90,
    calculatePercentileFloat overallExecDurs 99 with
  | some p50, some p90, some p99 =>
    let avgExplainAnalyze := calculateAverage overallAnalyzeDurs
    match calculatePercentileFloat overallAnalyzeDurs 50,
      calculatePercentileFloat overallAnalyzeDurs 90,
      calculatePercentileFloat overallAnalyzeDurs 99 with
    | some p50ExplainAnalyze, some p90ExplainAnalyze, some p99ExplainAnalyze =>
      some ⟨avg, p50, p90, p99, avgExplainAnalyze, p50ExplainAnalyze, p90ExplainAnalyze,
        p99ExplainAnalyze⟩
    | _, _, _ => none
  | _, _, _ => none

/-- The function `runEach`: `micros w s i` is the measured duration of operation `i` of
worker `w` on stock `s`, and `sched` the order in which the workers take the mutex.
`none` when `sched` leaves a worker unfinished (no run of the program ends so) or on a panic. -/
def runEach (opt : analyzeParam) (micros : Nat → Nat → Nat → Int) (sched : List Nat) :
    Option roundtripResultMetric :=
  let st := runMerges opt micros sched
  if st.allDone then reduceMetric st.met else none

/-- The schedule in which the workers run one after the other. -/
def sequentialSchedule (opt : analyzeParam) : List Nat :=
  ((List.range opt.routineCount.toNat).map (fun w => List.replicate stocks.length w)).flatten

/-- The 1-indexed nearest rank `ceil(N·p/100)` clamped to `[1, N]`, as the specification
words it. -/
def nearestRank (n : Nat) (p : ℚ) : Int :=
  max 1 (min (n : Int) ⌈(n : ℚ) * p / 100⌉)

/-- The 1-indexed rank the source computes in `float64`, clamped to `[1, N]`. -/
def nearestRankFloat (n : Nat) (p : ℚ) : Int :=
  max 1 (min (n : Int) ⌈roundFloat64 (roundFloat64 (roundFloat64 (n : ℚ) * p) / 100)⌉)

/-- The ascending samples `0, 1, ..., 124`. -/
def samples125 : List ℚ := (List.range 125).map (fun (i : ℕ) => (i : ℚ))

/-- The `float64` value of the literal `0.8`, that is `0x3FE999999999999A`. -/
def rank08 : ℚ := 3602879701896397 / 4503599627370496

/-- Number of locked blocks still to run. -/
def pendingCount (st : MergeState) : Nat :=
  (st.pending.map List.length).sum

/-- Invariant of the merge: every pending chunk holds `k` samples, and the merged samples
together with the pending ones number `total`. -/
def MergeInv (k total : Nat) (st : MergeState) : Prop :=
  (∀ l ∈ st.pending, ∀ c ∈ l, c.1.length = k) ∧
    st.met.durations.length + k * pendingCount st = total

/-- The effect of one locked block on the pending lists alone. -/
def stepPending {α : Type} (ps : List (List α)) (w : Nat) : List (List α) :=
  match ps[w]? with
  | some (_ :: rest) => ps.set w rest
  | _ => ps

/-- Parameters with two workers and no sample: `samplingCount = 0`. -/
def twoByZero : analyzeParam := ⟨2, 0, false⟩

/-- The default parameters of the reader: two workers, five samples. -/
def twoByFive : analyzeParam := ⟨2, 5, false⟩

/-- A clock on which every operation takes 10 ms. -/
def tenMillis : Nat → Nat → Nat → Int := fun _ _ _ => 10000

end Reader

/-! ## Theorems -/

/-! ### List helpers -/

theorem getElem?_of_lt_length {α : Type} (l : List α) (i : Nat) (h : i < l.length) :
    ∃ x, l[i]? = some x := ⟨l[i], List.getElem?_eq_getElem h⟩

theorem take_drop_split {α : Type} (xs : List α) (c n m : Nat) (h : n ≤ m) :
    (xs.drop c).take m = (xs.drop c).take n ++ (xs.drop (c + n)).take (m - n) := by
  have : m = n + (m - n) := by omega
  conv_lhs => rw [this, List.take_add, List.drop_drop]

theorem getElem?_take_drop {α : Type} (xs : List α) (c n o : Nat) (ho : o < n) :
    ((xs.drop c).take n)[o]? = xs[c + o]? := by
  rw [List.getElem?_take_of_lt ho, List.getElem?_drop]

theorem flatten_length_of_forall {α : Type} (ls : List (List α)) (k : Nat)
    (h : ∀ l ∈ ls, l.length = k) : ls.flatten.length = ls.length * k := by
  induction ls with
  | nil => simp
  | cons l ls ih =>
    rw [List.flatten_cons, List.length_append, h l (List.mem_cons_self _ _),
      ih (fun x hx => h x (List.mem_cons_of_mem _ hx)), List.length_cons]
    ring

theorem sum_length_set {α : Type} (ls : List (List α)) (w : Nat) (c : α) (rest : List α)
    (h : ls[w]? = some (c :: rest)) :
    ((ls.set w rest).map List.length).sum + 1 = (ls.map List.length).sum := by
  induction ls generalizing w with
  | nil => simp at h
  | cons l ls ih =>
    cases w with
    | zero =>
      simp only [List.getElem?_cons_zero, Option.some.injEq] at h
      subst h
      simp only [List.set_cons_zero, List.map_cons, List.sum_cons, List.length_cons]
      omega
    | succ w =>
      simp only [List.getElem?_cons_succ] at h
      have := ih w h
      simp only [List.set_cons_succ, List.map_cons, List.sum_cons]
      omega

theorem mem_set_sub {α : Type} (ls : List (List α)) (w : Nat) (c : α) (rest : List α)
    (h : ls[w]? = some (c :: rest)) :
    ∀ l ∈ ls.set w rest, ∀ x ∈ l, ∃ l' ∈ ls, x ∈ l' := by
  intro l hl x hx
  rcases List.mem_or_eq_of_mem_set hl with h1 | h1
  · exact ⟨l, h1, hx⟩
  · subst h1
    exact ⟨c :: l, List.getElem?_mem h, List.mem_cons_of_mem _ hx⟩

/-- A sum inside the 64-bit range is not changed by the wrap-around. -/
theorem wrapInt64_eq (x : Int) (h1 : -(2 ^ 63) ≤ x) (h2 : x < 2 ^ 63) : wrapInt64 x = x := by
  unfold wrapInt64
  omega

theorem goSlice_natCast {α : Type} (xs : List α) (lo hi : Nat) (h1 : lo ≤ hi)
    (h2 : hi ≤ xs.length) :
    goSlice xs (lo : Int) (hi : Int) = some ((xs.drop lo).take (hi - lo)) := by
  unfold goSlice
  rw [if_pos (by omega)]
  have e1 : ((lo : Int)).toNat = lo := by omega
  have e2 : ((hi : Int) - (lo : Int)).toNat = hi - lo := by omega
  rw [e1, e2]

/-! ### Percentile estimator -/

/-- The estimator with the index taken exactly: for a non-empty `S` of `N` values and a rank
`p` with `0 ≤ p ≤ 100` it returns the sample at the 1-indexed rank `ceil(N·p/100)` clamped
to `[1, N]` (no ordering of `S` is needed). -/
theorem calculatePercentile_nearest_rank (S : List ℚ) (p : ℚ) (hS : S ≠ [])
    (h0 : 0 ≤ p) (_h100 : p ≤ 100) :
    1 ≤ Reader.nearestRank S.length p ∧ Reader.nearestRank S.length p ≤ (S.length : Int) ∧
    ∃ x, S[(Reader.nearestRank S.length p - 1).toNat]? = some x ∧
      Reader.calculatePercentile S p = some (F64.fin x) := by
  have hlen : 0 < S.length := List.length_pos.mpr hS
  have hidx0 : (0 : Int) ≤ ⌈(S.length : ℚ) * p / 100⌉ := by
    apply Int.ceil_nonneg
    positivity
  unfold Reader.calculatePercentile Reader.nearestRank
  rw [if_neg (by omega)]
  simp only []
  generalize ⌈(S.length : ℚ) * p / 100⌉ = index at hidx0 ⊢
  refine ⟨by omega, by omega, ?_⟩
  by_cases hz : index = 0
  · obtain ⟨x, hx⟩ := getElem?_of_lt_length S 0 hlen
    refine ⟨x, ?_, ?_⟩
    · have : (max 1 (min (S.length : Int) index) - 1).toNat = 0 := by omega
      rw [this]; exact hx
    · rw [if_pos hz, hx]; rfl
  · rw [if_neg hz]
    by_cases hge : index ≥ (S.length : Int)
    · obtain ⟨x, hx⟩ := getElem?_of_lt_length S (S.length - 1) (by omega)
      refine ⟨x, ?_, ?_⟩
      · have : (max 1 (min (S.length : Int) index) - 1).toNat = S.length - 1 := by omega
        rw [this]; exact hx
      · rw [if_pos hge, hx]; rfl
    · rw [if_neg hge, if_neg (by omega)]
      obtain ⟨x, hx⟩ := getElem?_of_lt_length S (index - 1).toNat (by omega)
      refine ⟨x, ?_, ?_⟩
      · have : (max 1 (min (S.length : Int) index) - 1).toNat = (index - 1).toNat := by omega
        rw [this]; exact hx
      · rw [hx]; rfl

/-- C8: on the empty sequence `calculatePercentile` returns not-a-number for every rank
and `calculateAverage` returns not-a-number (`0 / 0`); both return a value, so neither
indexes into the sequence. -/
theorem empty_estimators_nan :
    (∀ p : ℚ, Reader.calculatePercentile [] p = some F64.nan) ∧
      Reader.calculateAverage [] = F64.nan := by
  constructor
  · intro p
    simp [Reader.calculatePercentile]
  · simp [Reader.calculateAverage, divFloat]

/-- C9: for a non-empty ascending sequence `S`, `calculatePercentile S 100` is the maximum
of `S` (an element of `S` that bounds every element from above) and `calculatePercentile S 0`
is `S[0]`, the minimum (it bounds every element from below). -/
theorem calculatePercentile_extremes (S : List ℚ) (hS : S ≠ [])
    (hasc : S.Sorted (fun a b => a ≤ b)) :
    (∃ m, Reader.calculatePercentile S 100 = some (F64.fin m) ∧ m ∈ S ∧ ∀ x ∈ S, x ≤ m) ∧
    (∃ m, Reader.calculatePercentile S 0 = some (F64.fin m) ∧ S[0]? = some m ∧
      ∀ x ∈ S, m ≤ x) := by
  have hlen : 0 < S.length := List.length_pos.mpr hS
  constructor
  · obtain ⟨m, hm⟩ := getElem?_of_lt_length S (S.length - 1) (by omega)
    obtain ⟨hlt, hmeq⟩ := List.getElem?_eq_some.mp hm
    refine ⟨m, ?_, ?_, ?_⟩
    · unfold Reader.calculatePercentile
      rw [if_neg (by omega)]
      have hc : ⌈(S.length : ℚ) * 100 / 100⌉ = (S.length : Int) := by
        rw [mul_div_assoc, div_self (by norm_num), mul_one]
        exact Int.ceil_natCast _
      simp only [hc]
      rw [if_neg (by omega), if_pos (le_refl _), hm]; rfl
    · rw [← hmeq]; exact List.getElem_mem hlt
    · intro x hx
      obtain ⟨i, hi, rfl⟩ := List.getElem_of_mem hx
      rw [← hmeq]
      rcases Nat.lt_or_ge i (S.length - 1) with h | h
      · exact List.Sorted.rel_get_of_lt hasc (a := ⟨i, hi⟩) (b := ⟨S.length - 1, hlt⟩) h
      · have : i = S.length - 1 := by omega
        subst this; exact le_refl _
  · obtain ⟨m, hm⟩ := getElem?_of_lt_length S 0 hlen
    obtain ⟨hlt, hmeq⟩ := List.getElem?_eq_some.mp hm
    refine ⟨m, ?_, hm, ?_⟩
    · unfold Reader.calculatePercentile
      rw [if_neg (by omega)]
      have hc : ⌈(S.length : ℚ) * 0 / 100⌉ = (0 : Int) := by simp
      simp only [hc]
      rw [if_pos trivial, hm]; rfl
    · intro x hx
      obtain ⟨i, hi, rfl⟩ := List.getElem_of_mem hx
      rw [← hmeq]
      rcases Nat.eq_zero_or_pos i with h | h
      · subst h; exact le_refl _
      · exact List.Sorted.rel_get_of_lt hasc (a := ⟨0, hlt⟩) (b := ⟨i, hi⟩) h

/-- Witness of C9 at `S = [1, 2, 3]`. -/
theorem calculatePercentile_extremes_witness :
    ([1, 2, 3] : List ℚ) ≠ [] ∧ ([1, 2, 3] : List ℚ).Sorted (fun a b => a ≤ b) ∧
    (∃ m, Reader.calculatePercentile [1, 2, 3] 100 = some (F64.fin m) ∧
      m ∈ ([1, 2, 3] : List ℚ) ∧ ∀ x ∈ ([1, 2, 3] : List ℚ), x ≤ m) ∧
    (∃ m, Reader.calculatePercentile [1, 2, 3] 0 = some (F64.fin m) ∧
      ([1, 2, 3] : List ℚ)[0]? = some m ∧ ∀ x ∈ ([1, 2, 3] : List ℚ), m ≤ x) :=
  ⟨by simp, by norm_num [List.Sorted],
    calculatePercentile_extremes [1, 2, 3] (by simp) (by norm_num [List.Sorted])⟩

/-! ### Latency accumulator -/

namespace Seeder

theorem record_totalOp (m : LatencyMetric) (d : ℚ) : (record m d).totalOp = m.totalOp + 1 := by
  simp only [record]; split <;> rfl

theorem record_cummulativeLatency (m : LatencyMetric) (d : ℚ) :
    (record m d).cummulativeLatency = m.cummulativeLatency + d := by
  simp only [record]; split <;> rfl

theorem record_maxLatency (m : LatencyMetric) (d : ℚ) :
    (record m d).maxLatency = max m.maxLatency d := by
  simp only [record]
  split
  · next h => exact (max_eq_right (le_of_lt h)).symm
  · next h => exact (max_eq_left (not_lt.mp h)).symm

theorem LatencyMetric.ext_fields {a b : LatencyMetric}
    (h1 : a.cummulativeLatency = b.cummulativeLatency) (h2 : a.totalOp = b.totalOp)
    (h3 : a.maxLatency = b.maxLatency) : a = b := by
  cases a; cases b; simp_all

/-- Two record steps commute. -/
theorem record_comm (m : LatencyMetric) (a b : ℚ) :
    record (record m a) b = record (record m b) a := by
  apply LatencyMetric.ext_fields
  · simp only [record_cummulativeLatency]; ring
  · simp only [record_totalOp]
  · simp only [record_maxLatency, max_assoc, max_comm a b]

theorem foldl_record_fields (ds : List ℚ) (m : LatencyMetric) :
    (ds.foldl record m).totalOp = m.totalOp + ds.length ∧
    (ds.foldl record m).cummulativeLatency = m.cummulativeLatency + ds.sum ∧
    (ds.foldl record m).maxLatency = ds.foldl max m.maxLatency := by
  induction ds generalizing m with
  | nil => simp
  | cons d ds ih =>
    obtain ⟨h1, h2, h3⟩ := ih (record m d)
    simp only [List.foldl_cons, List.length_cons, List.sum_cons]
    refine ⟨?_, ?_, ?_⟩
    · rw [h1, record_totalOp]; push_cast; ring
    · rw [h2, record_cummulativeLatency]; ring
    · rw [h3, record_maxLatency]

theorem foldl_max_ge (ds : List ℚ) (a : ℚ) :
    a ≤ ds.foldl max a ∧ ∀ d ∈ ds, d ≤ ds.foldl max a := by
  induction ds generalizing a with
  | nil => simp
  | cons d ds ih =>
    obtain ⟨h1, h2⟩ := ih (max a d)
    simp only [List.foldl_cons, List.mem_cons]
    refine ⟨le_trans (le_max_left a d) h1, ?_⟩
    rintro x (rfl | hx)
    · exact le_trans (le_max_right a x) h1
    · exact h2 x hx

theorem foldl_max_mem (ds : List ℚ) (a : ℚ) :
    ds.foldl max a = a ∨ ds.foldl max a ∈ ds := by
  induction ds generalizing a with
  | nil => simp
  | cons d ds ih =>
    simp only [List.foldl_cons, List.mem_cons]
    rcases ih (max a d) with h | h
    · rcases max_choice a d with h' | h'
      · left; rw [h, h']
      · right; left; rw [h, h']
    · right; right; exact h

/-- C4: from the zero state, after `N ≥ 1` record steps with non-negative durations
`d_1 .. d_N`, `totalOp = N`, `cummulativeLatency` is the sum of the `d_i`, `maxLatency` is
their maximum (one of the `d_i`, and at least each of them), and applying the steps in any
other order gives the same final state. -/
theorem recordAll_final_state (ds : List ℚ) (hne : ds ≠ []) (hnonneg : ∀ d ∈ ds, 0 ≤ d) :
    (recordAll ds).totalOp = ds.length ∧
    (recordAll ds).cummulativeLatency = ds.sum ∧
    ((recordAll ds).maxLatency ∈ ds ∧ ∀ d ∈ ds, d ≤ (recordAll ds).maxLatency) ∧
    ∀ ds' : List ℚ, ds'.Perm ds → recordAll ds' = recordAll ds := by
  obtain ⟨h1, h2, h3⟩ := foldl_record_fields ds LatencyMetric.zero
  unfold recordAll
  refine ⟨?_, ?_, ⟨?_, ?_⟩, ?_⟩
  · rw [h1]; simp [LatencyMetric.zero]
  · rw [h2]; simp [LatencyMetric.zero]
  · rw [h3]
    rcases foldl_max_mem ds LatencyMetric.zero.maxLatency with h | h
    · -- the running maximum never left the initial 0: some duration is 0
      obtain ⟨d, hd⟩ := List.exists_mem_of_ne_nil ds hne
      have hle := (foldl_max_ge ds LatencyMetric.zero.maxLatency).2 d hd
      rw [h] at hle ⊢
      have hd0 : d = 0 := le_antisymm hle (hnonneg d hd)
      change (0 : ℚ) ∈ ds
      rw [← hd0]; exact hd
    · exact h
  · rw [h3]; exact (foldl_max_ge ds _).2
  · intro ds' hperm
    exact List.Perm.foldl_eq' hperm (fun x _ y _ z => record_comm z x y) _

/-- Witness of C4 at the durations `[3, 1, 2]`. -/
theorem recordAll_final_state_witness :
    ([3, 1, 2] : List ℚ) ≠ [] ∧ (∀ d ∈ ([3, 1, 2] : List ℚ), 0 ≤ d) ∧
    (recordAll [3, 1, 2]).totalOp = ([3, 1, 2] : List ℚ).length ∧
    (recordAll [3, 1, 2]).cummulativeLatency = ([3, 1, 2] : List ℚ).sum ∧
    ((recordAll [3, 1, 2]).maxLatency ∈ ([3, 1, 2] : List ℚ) ∧
      ∀ d ∈ ([3, 1, 2] : List ℚ), d ≤ (recordAll [3, 1, 2]).maxLatency) ∧
    ∀ ds' : List ℚ, ds'.Perm [3, 1, 2] → recordAll ds' = recordAll [3, 1, 2] :=
  ⟨by simp, by norm_num, recordAll_final_state [3, 1, 2] (by simp) (by norm_num)⟩

end Seeder

/-! ### Segment-driven partitioning -/

namespace Seeder

/-- The inner loop succeeds on well-formed identifiers and keeps them in order. -/
theorem segmentRows_ok (p : portfolioGenData) (draw : Int → RowDraws) (part : List String)
    (hwf : ∀ a ∈ part, (userId a).isSome = true) (i : Int) :
    ∃ rows, segmentRows p draw i part = some rows ∧ rows.map (fun r => r.AccNo) = part := by
  induction part generalizing i with
  | nil => exact ⟨[], rfl, rfl⟩
  | cons a rest ih =>
    obtain ⟨uid, huid⟩ := Option.isSome_iff_exists.mp (hwf a (List.mem_cons_self _ _))
    obtain ⟨rows, hrows, hmap⟩ := ih (fun b hb => hwf b (List.mem_cons_of_mem _ hb)) (i + 1)
    refine ⟨segmentRow p uid a (draw i) :: rows, ?_, ?_⟩
    · simp only [segmentRows, huid, hrows]
    · simp only [List.map_cons, hmap, segmentRow]

/-- The segment loop entered at `currIdx = c`, `endIdx = c + B` with `c ≤ E = p.endIdx`:
with more than `(E - c) / B` units of fuel it ends normally, having submitted
`(E - c) / B + 1` further batches; batch `i` carries the identifiers at the positions
`[c + i·B, c + i·B + min B (E - c - i·B))`, and together they are `accNos[c:E]`. -/
theorem segmentLoop_spec (accNos : List String) (p : portfolioGenData) (draw : Int → RowDraws)
    (B E : Nat) (hB : 1 ≤ B) (hE : p.endIdx = (E : Int)) (hlen : E ≤ accNos.length) :
    ∀ (fuel c : Nat) (acc : List (List UserData)), c ≤ E → (E - c) / B < fuel →
      (c : Int) + (((E - c) / B + 1 : Nat) : Int) * (B : Int) < 2 ^ 63 →
      (∀ a ∈ (accNos.drop c).take (E - c), (userId a).isSome = true) →
      ∃ bs, segmentLoop accNos (B : Int) p draw fuel (c : Int) ((c : Int) + (B : Int)) acc
          = .ok (acc ++ bs) ∧
        bs.length = (E - c) / B + 1 ∧
        (bs.flatten).map (fun r => r.AccNo) = (accNos.drop c).take (E - c) ∧
        ∀ i, i < bs.length → ∃ b, bs[i]? = some b ∧
          b.map (fun r => r.AccNo) = (accNos.drop (c + i * B)).take (min B (E - c - i * B)) := by
  intro fuel
  induction fuel with
  | zero => intro c acc _ h; exact absurd h (Nat.not_lt_zero _)
  | succ fuel ih =>
    intro c acc hcE hfuel hov hwf
    by_cases hlast : (c : Int) + (B : Int) > p.endIdx
    · -- the last iteration: the batch is what is left of the segment
      have hlt : E - c < B := by omega
      obtain ⟨rows, hrows, hmap⟩ := segmentRows_ok p draw ((accNos.drop c).take (E - c)) hwf c
      refine ⟨[rows], ?_, ?_, ?_, ?_⟩
      · simp only [segmentLoop, hlast, if_true, decide_True]
        rw [hE, goSlice_natCast accNos c E hcE hlen]
        simp only [hrows]
      · rw [Nat.div_eq_of_lt hlt]; rfl
      · simpa using hmap
      · intro i hi
        have hi0 : i = 0 := by simpa using hi
        subst hi0
        refine ⟨rows, rfl, ?_⟩
        rw [hmap]
        simp only [Nat.zero_mul, Nat.add_zero, Nat.sub_zero]
        rw [Nat.min_eq_right (le_of_lt hlt)]
    · -- a full batch, and the loop goes on from `c + B`
      have hle : c + B ≤ E := by omega
      have hsplit := take_drop_split accNos c B (E - c) (by omega)
      have hwf1 : ∀ a ∈ (accNos.drop c).take B, (userId a).isSome = true := by
        intro a ha; apply hwf; rw [hsplit]; exact List.mem_append_left _ ha
      have hwf2 : ∀ a ∈ (accNos.drop (c + B)).take (E - (c + B)), (userId a).isSome = true := by
        intro a ha; apply hwf; rw [hsplit]
        apply List.mem_append_right
        have : E - c - B = E - (c + B) := by omega
        rw [this]; exact ha
      obtain ⟨rows, hrows, hmap⟩ := segmentRows_ok p draw ((accNos.drop c).take B) hwf1 c
      have hdiv : (E - c) / B = (E - (c + B)) / B + 1 := by
        have : E - c = (E - (c + B)) + B := by omega
        rw [this, Nat.add_div_right _ (by omega)]
      have hov' : ((c + B : Nat) : Int) + (((E - (c + B)) / B + 1 : Nat) : Int) * (B : Int)
          < 2 ^ 63 := by
        have h := hov
        rw [hdiv] at h
        push_cast at h ⊢
        linarith
      have hB2 : (c : Int) + (B : Int) + (B : Int) < 2 ^ 63 := by
        have h := hov
        rw [hdiv] at h
        have hd : (0 : Int) ≤ (((E - (c + B)) / B : Nat) : Int) * (B : Int) := by positivity
        push_cast at h hd
        linarith
      obtain ⟨bs, hbs, hlenbs, hflat, hbatch⟩ :=
        ih (c + B) (acc ++ [rows]) hle (by omega) hov' hwf2
      refine ⟨rows :: bs, ?_, ?_, ?_, ?_⟩
      · simp only [segmentLoop, hlast, if_false, decide_False,
          wrapInt64_eq ((c : Int) + (B : Int)) (by omega) (by omega),
          wrapInt64_eq ((c : Int) + (B : Int) + (B : Int)) (by omega) (by omega)]
        have hs : goSlice accNos (c : Int) ((c : Int) + (B : Int)) =
            some ((accNos.drop c).take B) := by
          have := goSlice_natCast accNos c (c + B) (by omega) (by omega)
          rw [Nat.add_sub_cancel_left] at this
          rw [← this]; push_cast; rfl
        rw [hs]
        simp only [hrows]
        have := hbs
        push_cast at this
        rw [this]
        simp
      · rw [List.length_cons, hlenbs, hdiv]
      · rw [List.flatten_cons, List.map_append, hmap, hflat, hsplit]
        have : E - c - B = E - (c + B) := by omega
        rw [this]
      · intro i hi
        cases i with
        | zero =>
          refine ⟨rows, by simp, ?_⟩
          rw [hmap]
          simp only [Nat.zero_mul, Nat.add_zero, Nat.sub_zero]
          rw [Nat.min_eq_left (by omega)]
        | succ i =>
          obtain ⟨b, hb, hbm⟩ := hbatch i (by simpa using hi)
          refine ⟨b, by simpa using hb, ?_⟩
          rw [hbm]
          have e1 : c + B + i * B = c + (i + 1) * B := by ring
          have e2 : E - (c + B) - i * B = E - c - (i + 1) * B := by
            have : (i + 1) * B = i * B + B := by ring
            omega
          rw [e1, e2]

end Seeder

namespace Seeder

/-- C3 (amended): for a segment with `0 ≤ startIdx ≤ endIdx ≤ len(accNos)` whose identifiers
carry a numeric user id at byte offset 10, and a batch size `B ≥ 1` with
`startIdx + ((endIdx - startIdx) div B + 1)·B < 2 ^ 63` (no sum `currIdx + batchRow` the loop
forms overflows `int`), the segment loop of `distribute` ends normally (given more than
`(endIdx - startIdx) / B` units of fuel) and the account identifiers of the submitted
batches, concatenated in submission order, are exactly `accNos[startIdx:endIdx]`: the
batches hold `endIdx - startIdx` rows in all, and the identifier at position `startIdx + j`
is the one of row `j mod B` of batch `j div B`. -/
theorem distributeSegment_partition (accNos : List String) (p : portfolioGenData)
    (batchRow : Int) (draw : Int → RowDraws) (fuel : Nat)
    (h0 : 0 ≤ p.startIdx) (h1 : p.startIdx ≤ p.endIdx) (h2 : p.endIdx ≤ (accNos.length : Int))
    (hB : 1 ≤ batchRow)
    (hov : p.startIdx + ((p.endIdx - p.startIdx) / batchRow + 1) * batchRow < 2 ^ 63)
    (hwf : ∀ a ∈ (accNos.drop p.startIdx.toNat).take (p.endIdx - p.startIdx).toNat,
      (userId a).isSome = true)
    (hfuel : (p.endIdx - p.startIdx) / batchRow < (fuel : Int)) :
    ∃ batches, distributeSegment fuel accNos batchRow p draw = .ok batches ∧
      goSlice accNos p.startIdx p.endIdx = some ((batches.flatten).map (fun r => r.AccNo)) ∧
      ((batches.flatten).length : Int) = p.endIdx - p.startIdx ∧
      ∀ j : Nat, (j : Int) < p.endIdx - p.startIdx →
        ∃ b row, batches[j / batchRow.toNat]? = some b ∧ b[j % batchRow.toNat]? = some row ∧
          accNos[p.startIdx.toNat + j]? = some row.AccNo := by
  have hsB : p.startIdx + batchRow < 2 ^ 63 := by
    have hq : 0 ≤ (p.endIdx - p.startIdx) / batchRow := Int.ediv_nonneg (by omega) (by omega)
    nlinarith [mul_nonneg hq (by omega : (0 : Int) ≤ batchRow)]
  obtain ⟨s, hs⟩ := Int.eq_ofNat_of_zero_le h0
  obtain ⟨E, hE⟩ := Int.eq_ofNat_of_zero_le (le_trans h0 h1)
  obtain ⟨B, hBn⟩ := Int.eq_ofNat_of_zero_le (le_trans (by decide : (0 : Int) ≤ 1) hB)
  subst hBn
  rw [hs, hE] at h1 hwf hfuel hov
  rw [hE] at h2
  have hsE : s ≤ E := by omega
  have hEl : E ≤ accNos.length := by omega
  have hB1 : 1 ≤ B := by omega
  have e1 : ((s : Int)).toNat = s := by omega
  have e2 : ((E : Int) - (s : Int)).toNat = E - s := by omega
  have e3 : ((B : Int)).toNat = B := by omega
  rw [e1, e2] at hwf
  have hf : (E - s) / B < fuel := by
    have hc : ((E : Int) - (s : Int)) = ((E - s : Nat) : Int) := by omega
    rw [hc] at hfuel
    exact_mod_cast hfuel
  have hovN : (s : Int) + (((E - s) / B + 1 : Nat) : Int) * (B : Int) < 2 ^ 63 := by
    have hc' : ((E : Int) - (s : Int)) = ((E - s : Nat) : Int) := by omega
    rw [hc'] at hov
    push_cast
    exact hov
  obtain ⟨bs, hbs, hlen, hflat, hbatch⟩ :=
    segmentLoop_spec accNos p draw B E hB1 hE hEl fuel s [] hsE hf hovN hwf
  refine ⟨bs, ?_, ?_, ?_, ?_⟩
  · unfold distributeSegment
    simp only [hs, wrapInt64_eq ((s : Int) + (B : Int)) (by omega) (by omega)]
    simpa using hbs
  · rw [hs, hE, goSlice_natCast accNos s E hsE hEl, hflat]
  · have := congrArg List.length hflat
    rw [List.length_map, List.length_take, List.length_drop] at this
    rw [this, hs, hE]; omega
  · intro j hj
    rw [hs, hE] at hj
    rw [hs, e1, e3]
    have hjlt : j < E - s := by omega
    have hdivlt : j / B < bs.length := by
      rw [hlen]
      exact Nat.lt_succ_of_le (Nat.div_le_div_right (le_of_lt hjlt))
    obtain ⟨b, hb, hbm⟩ := hbatch (j / B) hdivlt
    have hd := Nat.div_add_mod j B
    have hcomm : j / B * B = B * (j / B) := Nat.mul_comm _ _
    have hmod : j % B < min B (E - s - j / B * B) := by
      have hm := Nat.mod_lt j (by omega : B > 0)
      rw [lt_min_iff]
      constructor
      · exact hm
      · omega
    have hget : (b.map (fun r => r.AccNo))[j % B]? = accNos[s + j]? := by
      rw [hbm, getElem?_take_drop _ _ _ _ hmod]
      congr 1
      omega
    have hjl : s + j < accNos.length := by omega
    rw [List.getElem?_map] at hget
    rw [List.getElem?_eq_getElem hjl] at hget ⊢
    cases hrow : b[j % B]? with
    | none => rw [hrow] at hget; simp at hget
    | some row =>
      rw [hrow] at hget
      refine ⟨b, row, hb, hrow, ?_⟩
      simp only [Option.map_some'] at hget
      rw [← hget]

/-- Witness of C3: ten identifiers, one segment over `[0, 10)`, batches of four. -/
theorem distributeSegment_partition_witness :
    ∃ batches, distributeSegment 3 accNos10 4 (gotoSegment 0 10) midRowDraws = .ok batches ∧
      goSlice accNos10 (gotoSegment 0 10).startIdx (gotoSegment 0 10).endIdx =
        some ((batches.flatten).map (fun r => r.AccNo)) ∧
      ((batches.flatten).length : Int) = (gotoSegment 0 10).endIdx - (gotoSegment 0 10).startIdx ∧
      ∀ j : Nat, (j : Int) < (gotoSegment 0 10).endIdx - (gotoSegment 0 10).startIdx →
        ∃ b row, batches[j / (4 : Int).toNat]? = some b ∧ b[j % (4 : Int).toNat]? = some row ∧
          accNos10[(gotoSegment 0 10).startIdx.toNat + j]? = some row.AccNo :=
  distributeSegment_partition accNos10 (gotoSegment 0 10) 4 midRowDraws 3
    (by decide) (by decide) (by decide) (by decide) (by decide) (by decide) (by decide)

/-- C3 as stated fails when `currIdx + batchRow` leaves the range of `int`: for the segment
`[5, 10)` over ten identifiers and `batchRow = 9223372036854775807` every condition of the
claim holds and `accNos[5:10]` has five identifiers, yet `endIdx` wraps to a negative number,
the first slice panics and no batch is submitted, whatever the fuel. -/
theorem distributeSegment_partition_counterexample :
    (0 ≤ (gotoSegment 5 10).startIdx ∧ (gotoSegment 5 10).startIdx ≤ (gotoSegment 5 10).endIdx ∧
      (gotoSegment 5 10).endIdx ≤ (accNos10.length : Int) ∧ 1 ≤ maxInt64) ∧
    goSlice accNos10 (gotoSegment 5 10).startIdx (gotoSegment 5 10).endIdx =
      some ["ACC0000000006", "ACC0000000007", "ACC0000000008", "ACC0000000009",
        "ACC0000000010"] ∧
    ∀ fuel : Nat, ¬ ∃ batches,
      distributeSegment fuel accNos10 maxInt64 (gotoSegment 5 10) midRowDraws = .ok batches := by
  refine ⟨by decide, by decide, ?_⟩
  intro fuel
  cases fuel with
  | zero => rintro ⟨b, hb⟩; cases hb
  | succ n =>
    rintro ⟨b, hb⟩
    have : distributeSegment (n + 1) accNos10 maxInt64 (gotoSegment 5 10) midRowDraws
        = .error Fault.panic := rfl
    rw [this] at hb
    cases hb

/-- The batches of a segment, in general: one more than `(endIdx - startIdx) div B` of
them, batch `i` holding `min B (endIdx - startIdx - i·B)` rows.  The last batch therefore
holds `(endIdx - startIdx) mod B` rows, none when `B` divides the segment length. -/
theorem distributeSegment_batch_sizes (accNos : List String) (p : portfolioGenData)
    (batchRow : Int) (draw : Int → RowDraws) (fuel : Nat)
    (h0 : 0 ≤ p.startIdx) (h1 : p.startIdx ≤ p.endIdx) (h2 : p.endIdx ≤ (accNos.length : Int))
    (hB : 1 ≤ batchRow)
    (hov : p.startIdx + ((p.endIdx - p.startIdx) / batchRow + 1) * batchRow < 2 ^ 63)
    (hwf : ∀ a ∈ (accNos.drop p.startIdx.toNat).take (p.endIdx - p.startIdx).toNat,
      (userId a).isSome = true)
    (hfuel : (p.endIdx - p.startIdx) / batchRow < (fuel : Int)) :
    ∃ batches, distributeSegment fuel accNos batchRow p draw = .ok batches ∧
      (batches.length : Int) = (p.endIdx - p.startIdx) / batchRow + 1 ∧
      ∀ (i : Nat) (b : List UserData), batches[i]? = some b →
        (b.length : Int) = min batchRow (p.endIdx - p.startIdx - i * batchRow) := by
  have hsB : p.startIdx + batchRow < 2 ^ 63 := by
    have hq : 0 ≤ (p.endIdx - p.startIdx) / batchRow := Int.ediv_nonneg (by omega) (by omega)
    nlinarith [mul_nonneg hq (by omega : (0 : Int) ≤ batchRow)]
  obtain ⟨s, hs⟩ := Int.eq_ofNat_of_zero_le h0
  obtain ⟨E, hE⟩ := Int.eq_ofNat_of_zero_le (le_trans h0 h1)
  obtain ⟨B, hBn⟩ := Int.eq_ofNat_of_zero_le (le_trans (by decide : (0 : Int) ≤ 1) hB)
  subst hBn
  rw [hs, hE] at h1 hwf hfuel hov
  rw [hE] at h2
  have hsE : s ≤ E := by omega
  have hEl : E ≤ accNos.length := by omega
  have hB1 : 1 ≤ B := by omega
  have e1 : ((s : Int)).toNat = s := by omega
  have e2 : ((E : Int) - (s : Int)).toNat = E - s := by omega
  rw [e1, e2] at hwf
  have hc : ((E : Int) - (s : Int)) = ((E - s : Nat) : Int) := by omega
  have hf : (E - s) / B < fuel := by
    rw [hc] at hfuel
    exact_mod_cast hfuel
  have hovN : (s : Int) + (((E - s) / B + 1 : Nat) : Int) * (B : Int) < 2 ^ 63 := by
    have hc' : ((E : Int) - (s : Int)) = ((E - s : Nat) : Int) := by omega
    rw [hc'] at hov
    push_cast
    exact hov
  obtain ⟨bs, hbs, hlen, _, hbatch⟩ :=
    segmentLoop_spec accNos p draw B E hB1 hE hEl fuel s [] hsE hf hovN hwf
  refine ⟨bs, ?_, ?_, ?_⟩
  · unfold distributeSegment
    simp only [hs, wrapInt64_eq ((s : Int) + (B : Int)) (by omega) (by omega)]
    simpa using hbs
  · rw [hlen, hs, hE, hc]; push_cast; rfl
  · intro i b hb
    have hi : i < bs.length := (List.getElem?_eq_some.mp hb).1
    obtain ⟨b', hb', hbm⟩ := hbatch i hi
    rw [hb] at hb'
    obtain rfl : b = b' := Option.some.inj hb'
    have hlenb := congrArg List.length hbm
    rw [List.length_map, List.length_take, List.length_drop] at hlenb
    have hiB : i * B ≤ E - s := by
      have hi' : i ≤ (E - s) / B := by omega
      exact le_trans (Nat.mul_le_mul_right B hi') (Nat.div_mul_le_self _ _)
    rw [hlenb, hs, hE]
    push_cast
    omega

end Seeder

namespace Seeder

/-- C2, at the input `startIdx = 0`, `endIdx = 8`, `batchRow = 4` over eight identifiers:
the segment loop submits three batches, of sizes 4, 4 and 0, whereas `ceil(8/4) = 2`
batches, none of them empty, are called for. -/
theorem distributeSegment_trailing_empty_batch :
    (distributeSegment 3 (accNos10.take 8) 4 (gotoSegment 0 8) midRowDraws).toOption.map
        (fun batches => batches.map List.length) = some [4, 4, 0] ∧
      ⌈((8 : Int) : ℚ) / ((4 : Int) : ℚ)⌉ = 2 := by
  constructor
  · decide
  · rw [Int.ceil_eq_iff]; norm_num

/-- The scenario of the specification: ten identifiers in batches of four are submitted as
batches of sizes 4, 4 and 2. -/
theorem distributeSegment_ten_by_four :
    (distributeSegment 3 accNos10 4 (gotoSegment 0 10) midRowDraws).toOption.map
        (fun batches => batches.map List.length) = some [4, 4, 2] := by
  decide

/-- C5, at the input `amount = 10`, `batchRow = 4`: `numIter` is `10/4 + 10%4 = 4` and four
batches are submitted, whereas `ceil(10/4) = 3`. -/
theorem genRandomDummyData_batch_count :
    numIter 10 4 = some 4 ∧
      (genRandomDummyData accNos10 10 4 midFillDraws).map List.length = some 4 ∧
      ⌈((10 : Int) : ℚ) / ((4 : Int) : ℚ)⌉ = 3 := by
  refine ⟨by decide, by decide, ?_⟩
  rw [Int.ceil_eq_iff]; norm_num

/-- Every segment `portfolioFromCsv` builds has its bounds the wrong way round: with draws
in `[0, 1)`, `genAvgPriceMax` is below 3000 and `genAvgPriceMin` is at least 3000, so the
interval `[genAvgPriceMin, genAvgPriceMax)` is empty. -/
theorem portfolioOfRecord_bounds_inverted (rec : List String) (d : SegDraws)
    (p : portfolioGenData) (hmin : 0 ≤ d.avgPriceMin) (hmax : d.avgPriceMax < 1)
    (hp : portfolioOfRecord rec d = some p) :
    p.genAvgPriceMax < 3000 ∧ 3000 ≤ p.genAvgPriceMin := by
  unfold portfolioOfRecord at hp
  split at hp
  · simp only [Option.some.injEq] at hp
    subst hp
    simp only [genRandomFloat]
    constructor <;> nlinarith
  · simp at hp

/-- C7, at the record `GOTO,1,0,1` with every draw `u = 1/2`: `portfolioFromCsv` yields
`genAvgPriceMin = 5000` and `genAvgPriceMax = 2000`, and the row `distribute` builds has
`PortoAvgPrice = PortoAmount = 3500`, outside `[genAvgPriceMin, genAvgPriceMax)`. -/
theorem distribute_price_outside_range :
    portfolioFromCsv [gotoRecord] midSegDraws = some [gotoFromCsv] ∧
      distribute 1 [gotoFromCsv] accNos10 4 (fun _ => midRowDraws) = .ok [[gotoRow]] ∧
      gotoFromCsv.genAvgPriceMin = 5000 ∧ gotoFromCsv.genAvgPriceMax = 2000 ∧
      gotoRow.PortoAvgPrice = 3500 ∧ gotoRow.PortoAmount = 3500 ∧
      ¬ (gotoFromCsv.genAvgPriceMin ≤ gotoRow.PortoAvgPrice ∧
          gotoRow.PortoAvgPrice < gotoFromCsv.genAvgPriceMax) ∧
      ¬ (gotoFromCsv.genAvgPriceMin ≤ gotoRow.PortoAmount ∧
          gotoRow.PortoAmount < gotoFromCsv.genAvgPriceMax) := by
  refine ⟨rfl, rfl, ?_, ?_, ?_, ?_, ?_, ?_⟩ <;>
    norm_num [gotoFromCsv, gotoRow, segmentRow, genRandomFloat, midRowDraws]

end Seeder

/-! ### Read workload -/

namespace Reader

theorem sortFloat64s_length (xs : List ℚ) : (sortFloat64s xs).length = xs.length :=
  List.length_insertionSort _ xs

theorem workerChunks_length (opt : analyzeParam) (micros : Nat → Nat → Int) :
    (workerChunks opt micros).length = 10 := by
  simp [workerChunks, stocks]

theorem workerChunks_mem (opt : analyzeParam) (micros : Nat → Nat → Int) :
    ∀ c ∈ workerChunks opt micros, c.1.length = opt.samplingCount.toNat := by
  intro c hc
  simp only [workerChunks, List.mem_map] at hc
  obtain ⟨s, _, rfl⟩ := hc
  simp [sortFloat64s_length, sampleStock]

/-- One worker records `samplingCount` samples for each of the ten stocks. -/
theorem workerDurations_length (opt : analyzeParam) (micros : Nat → Nat → Int) :
    (workerDurations opt micros).length = 10 * opt.samplingCount.toNat := by
  unfold workerDurations
  rw [flatten_length_of_forall _ opt.samplingCount.toNat, List.length_map, workerChunks_length]
  intro l hl
  obtain ⟨c, hc, rfl⟩ := List.mem_map.mp hl
  exact workerChunks_mem opt micros c hc

theorem mergeStep_inv (k total : Nat) (st : MergeState) (w : Nat) (h : MergeInv k total st) :
    MergeInv k total (mergeStep st w) := by
  unfold mergeStep
  split
  · next c rest hw =>
    obtain ⟨h1, h2⟩ := h
    constructor
    · intro l hl x hx
      obtain ⟨l', hl', hx'⟩ := mem_set_sub st.pending w c rest hw l hl x hx
      exact h1 l' hl' x hx'
    · have hs := sum_length_set st.pending w c rest hw
      have hc : c.1.length = k :=
        h1 (c :: rest) (List.getElem?_mem hw) c (List.mem_cons_self _ _)
      simp only [pendingCount, List.length_append, hc] at h2 ⊢
      rw [← hs] at h2
      rw [← h2]; ring
  · exact h

theorem foldl_mergeStep_inv (k total : Nat) (sched : List Nat) (st : MergeState)
    (h : MergeInv k total st) : MergeInv k total (sched.foldl mergeStep st) := by
  induction sched generalizing st with
  | nil => exact h
  | cons w sched ih => exact ih _ (mergeStep_inv k total st w h)

theorem init_inv (opt : analyzeParam) (micros : Nat → Nat → Nat → Int) :
    MergeInv opt.samplingCount.toNat (10 * opt.routineCount.toNat * opt.samplingCount.toNat)
      (MergeState.init opt micros) := by
  constructor
  · intro l hl c hc
    simp only [MergeState.init, List.mem_map] at hl
    obtain ⟨w, _, rfl⟩ := hl
    exact workerChunks_mem opt (micros w) c hc
  · have : pendingCount (MergeState.init opt micros) = opt.routineCount.toNat * 10 := by
      simp only [pendingCount, MergeState.init, List.map_map]
      have : (List.length ∘ fun w => workerChunks opt (micros w)) = fun _ => 10 := by
        funext w; simp [workerChunks_length]
      rw [this]
      simp
    rw [this]
    simp only [MergeState.init, List.length_nil]
    ring

theorem allDone_pendingCount (st : MergeState) (h : st.allDone = true) : pendingCount st = 0 := by
  unfold MergeState.allDone at h
  unfold pendingCount
  rw [List.all_eq_true] at h
  apply List.sum_eq_zero
  intro n hn
  obtain ⟨l, hl, rfl⟩ := List.mem_map.mp hn
  have := h l hl
  simp only [List.isEmpty_iff] at this
  rw [this]; rfl

/-- Once every worker has finished, the shared metric holds
`10 · routineCount · samplingCount` samples, whatever the order of the merges. -/
theorem runMerges_durations_length (opt : analyzeParam) (micros : Nat → Nat → Nat → Int)
    (sched : List Nat) (hdone : (runMerges opt micros sched).allDone = true) :
    (runMerges opt micros sched).met.durations.length =
      10 * opt.routineCount.toNat * opt.samplingCount.toNat := by
  have hinv := foldl_mergeStep_inv _ _ sched _ (init_inv opt micros)
  obtain ⟨_, h2⟩ := hinv
  have h0 := allDone_pendingCount _ hdone
  unfold runMerges at h0 hdone ⊢
  rw [h0] at h2
  simpa using h2

end Reader

namespace Reader

theorem mergeStep_pending (st : MergeState) (w : Nat) :
    (mergeStep st w).pending = stepPending st.pending w := by
  unfold mergeStep stepPending
  split <;> simp_all

theorem foldl_mergeStep_pending (sched : List Nat) (st : MergeState) :
    (sched.foldl mergeStep st).pending = sched.foldl stepPending st.pending := by
  induction sched generalizing st with
  | nil => rfl
  | cons w sched ih => simp only [List.foldl_cons, ih, mergeStep_pending]

theorem stepPending_replicate {α : Type} (n w : Nat) :
    ∀ (ps : List (List α)) (l : List α), ps[w]? = some l → l.length = n →
      (List.replicate n w).foldl stepPending ps = ps.set w [] := by
  induction n with
  | zero =>
    intro ps l hl hn
    have hl0 : l = [] := List.length_eq_zero.mp hn
    subst hl0
    simp only [List.replicate_zero, List.foldl_nil]
    obtain ⟨hw, hget⟩ := List.getElem?_eq_some.mp hl
    apply List.ext_getElem?
    intro i
    by_cases hi : i = w
    · subst hi; rw [List.getElem?_set_self hw, hl]
    · rw [List.getElem?_set_ne (Ne.symm hi)]
  | succ n ih =>
    intro ps l hl hn
    cases l with
    | nil => simp at hn
    | cons c rest =>
      obtain ⟨hw, _⟩ := List.getElem?_eq_some.mp hl
      have hstep : stepPending ps w = ps.set w rest := by
        unfold stepPending; rw [hl]
      rw [List.replicate_succ, List.foldl_cons, hstep]
      rw [ih (ps.set w rest) rest (by rw [List.getElem?_set_self hw]) (by simpa using hn)]
      rw [List.set_set]

theorem stepPending_blocks {α : Type} (n : Nat) :
    ∀ (ws : List Nat) (ps : List (List α)), ws.Nodup →
      (∀ w ∈ ws, ∃ l, ps[w]? = some l ∧ l.length = n) →
      ((ws.map (fun w => List.replicate n w)).flatten).foldl stepPending ps
        = ws.foldl (fun qs w => qs.set w []) ps := by
  intro ws
  induction ws with
  | nil => intro ps _ _; rfl
  | cons w ws ih =>
    intro ps hnd hall
    obtain ⟨l, hl, hn⟩ := hall w (List.mem_cons_self _ _)
    rw [List.map_cons, List.flatten_cons, List.foldl_append,
      stepPending_replicate n w ps l hl hn, List.foldl_cons]
    apply ih _ (List.nodup_cons.mp hnd).2
    intro w' hw'
    obtain ⟨l', hl', hn'⟩ := hall w' (List.mem_cons_of_mem _ hw')
    have hne : w ≠ w' := by
      intro h; subst h; exact (List.nodup_cons.mp hnd).1 hw'
    exact ⟨l', by rw [List.getElem?_set_ne hne]; exact hl', hn'⟩

theorem foldl_set_nil_length {α : Type} :
    ∀ (ws : List Nat) (ps : List (List α)),
      (ws.foldl (fun qs w => qs.set w []) ps).length = ps.length := by
  intro ws
  induction ws with
  | nil => intro ps; rfl
  | cons w ws ih => intro ps; rw [List.foldl_cons, ih, List.length_set]

theorem foldl_set_nil {α : Type} :
    ∀ (ws : List Nat) (ps : List (List α)) (i : Nat), i < ps.length →
      (i ∈ ws ∨ ps[i]? = some []) →
      (ws.foldl (fun qs w => qs.set w []) ps)[i]? = some [] ∧
        (ws.foldl (fun qs w => qs.set w []) ps).length = ps.length := by
  intro ws
  induction ws with
  | nil =>
    intro ps i _ h
    rcases h with h | h
    · simp at h
    · exact ⟨h, rfl⟩
  | cons w ws ih =>
    intro ps i hi h
    rw [List.foldl_cons]
    have hlen : (ps.set w []).length = ps.length := List.length_set _ _ _
    have := ih (ps.set w []) i (by rw [hlen]; exact hi) (by
      by_cases hiw : i = w
      · right; rw [hiw, List.getElem?_set_self (by rw [← hiw]; exact hi)]
      · rcases h with h | h
        · left
          rcases List.mem_cons.mp h with h' | h'
          · exact absurd h' hiw
          · exact h'
        · right; rw [List.getElem?_set_ne (Ne.symm hiw)]; exact h)
    exact ⟨this.1, by rw [this.2, hlen]⟩

/-- The schedule in which the workers run one after the other lets every worker finish:
a complete run exists for every parameter set. -/
theorem sequentialSchedule_allDone (opt : analyzeParam) (micros : Nat → Nat → Nat → Int) :
    (runMerges opt micros (sequentialSchedule opt)).allDone = true := by
  unfold MergeState.allDone runMerges
  rw [foldl_mergeStep_pending]
  have hstocks : stocks.length = 10 := rfl
  unfold sequentialSchedule
  rw [hstocks]
  have hinit : (MergeState.init opt micros).pending.length = opt.routineCount.toNat := by
    simp [MergeState.init]
  rw [stepPending_blocks 10 (List.range opt.routineCount.toNat) _ (List.nodup_range _)]
  · rw [List.all_eq_true]
    intro l hl
    obtain ⟨i, hi⟩ := List.mem_iff_getElem?.mp hl
    have hi' : i < (MergeState.init opt micros).pending.length := by
      have h1 := (List.getElem?_eq_some.mp hi).1
      rw [foldl_set_nil_length] at h1
      exact h1
    have := (foldl_set_nil (List.range opt.routineCount.toNat)
      (MergeState.init opt micros).pending i hi'
      (Or.inl (by rw [List.mem_range, ← hinit]; exact hi'))).1
    rw [hi] at this
    simp only [Option.some.injEq] at this
    rw [this]; rfl
  · intro w hw
    rw [List.mem_range] at hw
    refine ⟨workerChunks opt (micros w), ?_, workerChunks_length _ _⟩
    simp [MergeState.init, hw]

theorem workerChunks_getElem? (opt : analyzeParam) (micros : Nat → Nat → Int) (s : Nat)
    (hs : s < stocks.length) :
    (workerChunks opt micros)[s]? =
      some (sortFloat64s (sampleStock (micros s) opt.samplingCount).1,
        sortFloat64s (sampleStock (micros s) opt.samplingCount).2) := by
  unfold workerChunks
  rw [List.getElem?_map, List.getElem?_range hs]
  rfl

/-- C6, as the code has it: with `W` workers and `samplingCount = K`, each worker merges one
chunk for each of the ten stock codes, the chunk for stock `s` being the `K` sorted samples
the sampling closure took for it, so a worker records `10·K` samples in all; the run in
which the workers merge one after the other lets every worker finish, and in every run in
which all workers have finished the merged sequence, and the sorted sequence the statistics
are computed from, has `10·W·K` samples, in whatever order the workers merged. -/
theorem runEach_sample_count (W K : Nat) (withExec : Bool) (micros : Nat → Nat → Nat → Int) :
    stocks.length = 10 ∧
    (∀ w s, s < stocks.length →
      (workerChunks ⟨(W : Int), (K : Int), withExec⟩ (micros w))[s]? =
        some (sortFloat64s (sampleStock (micros w s) (K : Int)).1,
          sortFloat64s (sampleStock (micros w s) (K : Int)).2) ∧
      (sampleStock (micros w s) (K : Int)).1.length = K ∧
      (sortFloat64s (sampleStock (micros w s) (K : Int)).1).length = K) ∧
    (∀ w, (workerChunks ⟨(W : Int), (K : Int), withExec⟩ (micros w)).length = 10 ∧
      (workerDurations ⟨(W : Int), (K : Int), withExec⟩ (micros w)).length = 10 * K) ∧
    (runMerges ⟨(W : Int), (K : Int), withExec⟩ micros
      (sequentialSchedule ⟨(W : Int), (K : Int), withExec⟩)).allDone = true ∧
    ∀ sched : List Nat,
      (runMerges ⟨(W : Int), (K : Int), withExec⟩ micros sched).allDone = true →
      (runMerges ⟨(W : Int), (K : Int), withExec⟩ micros sched).met.durations.length
        = 10 * W * K ∧
      (sortFloat64s
        (runMerges ⟨(W : Int), (K : Int), withExec⟩ micros sched).met.durations).length
        = 10 * W * K := by
  refine ⟨rfl, ?_, ?_, sequentialSchedule_allDone _ _, ?_⟩
  · intro w s hs
    refine ⟨workerChunks_getElem? _ _ s hs, ?_, ?_⟩
    · simp [sampleStock]
    · rw [sortFloat64s_length]; simp [sampleStock]
  · intro w
    refine ⟨workerChunks_length _ _, ?_⟩
    have := workerDurations_length ⟨(W : Int), (K : Int), withExec⟩ (micros w)
    simpa using this
  · intro sched hdone
    have h := runMerges_durations_length ⟨(W : Int), (K : Int), withExec⟩ micros sched hdone
    simp only [Int.toNat_ofNat] at h
    exact ⟨h, by rw [sortFloat64s_length, h]⟩

/-- Witness of C6 (amended): two workers, five samples, workers merging one after the other. -/
theorem runEach_sample_count_witness :
    (runMerges ⟨((2 : Nat) : Int), ((5 : Nat) : Int), false⟩ tenMillis
        (sequentialSchedule twoByFive)).allDone = true ∧
    (∀ w s, s < stocks.length →
      (sampleStock (tenMillis w s) ((5 : Nat) : Int)).1.length = 5) ∧
    (∀ w, (workerDurations ⟨((2 : Nat) : Int), ((5 : Nat) : Int), false⟩
        (tenMillis w)).length = 10 * 5) ∧
    (runMerges ⟨((2 : Nat) : Int), ((5 : Nat) : Int), false⟩ tenMillis
        (sequentialSchedule twoByFive)).met.durations.length = 10 * 2 * 5 ∧
    (sortFloat64s (runMerges ⟨((2 : Nat) : Int), ((5 : Nat) : Int), false⟩ tenMillis
        (sequentialSchedule twoByFive)).met.durations).length = 10 * 2 * 5 :=
  ⟨by decide,
    fun w s hs => ((runEach_sample_count 2 5 false tenMillis).2.1 w s hs).2.1,
    fun w => ((runEach_sample_count 2 5 false tenMillis).2.2.1 w).2,
    (runEach_sample_count 2 5 false tenMillis).2.2.2.2 (sequentialSchedule twoByFive)
      (by decide)⟩

/-- C6 as stated fails at `samplingCount = 5`, `routineCount = 2`: in the run where the
workers merge one after the other, a worker records 50 samples, not 5, and the merged
sequence has 100 samples, not `2 · 5 = 10`. -/
theorem runEach_sample_count_counterexample :
    (runMerges twoByFive tenMillis (sequentialSchedule twoByFive)).allDone = true ∧
    (workerDurations twoByFive (tenMillis 0)).length = 50 ∧
    ¬ ((workerDurations twoByFive (tenMillis 0)).length = 5) ∧
    (runMerges twoByFive tenMillis (sequentialSchedule twoByFive)).met.durations.length = 100 ∧
    ¬ ((runMerges twoByFive tenMillis (sequentialSchedule twoByFive)).met.durations.length
        = 2 * 5) := by
  have hdone : (runMerges twoByFive tenMillis (sequentialSchedule twoByFive)).allDone = true := by
    decide
  have hw := workerDurations_length twoByFive (tenMillis 0)
  have hm := runMerges_durations_length twoByFive tenMillis (sequentialSchedule twoByFive) hdone
  have hK : twoByFive.samplingCount.toNat = 5 := by decide
  have hW : twoByFive.routineCount.toNat = 2 := by decide
  rw [hK] at hw
  rw [hK, hW] at hm
  refine ⟨hdone, hw, ?_, hm, ?_⟩
  · rw [hw]; decide
  · rw [hm]; decide

end Reader

/-! ### Rounding to `float64` -/

theorem roundHalfEven_of_close (m : ℚ) (n : Int) (h : |m - n| < 1 / 2) :
    roundHalfEven m = n := by
  have h1 := abs_lt.mp h
  have hf1 : (⌊m⌋ : ℚ) ≤ m := Int.floor_le m
  have hf2 : m < (⌊m⌋ : ℚ) + 1 := Int.lt_floor_add_one m
  unfold roundHalfEven
  simp only []
  split_ifs with ha hb hc
  · have hlt1 : (n : ℚ) < (⌊m⌋ : ℚ) + 1 := by linarith
    have hlt2 : (⌊m⌋ : ℚ) < (n : ℚ) + 1 := by linarith
    have a1 : n < ⌊m⌋ + 1 := by exact_mod_cast hlt1
    have a2 : ⌊m⌋ < n + 1 := by exact_mod_cast hlt2
    omega
  · have hlt1 : (n : ℚ) < (⌊m⌋ : ℚ) + 2 := by linarith
    have hlt2 : (⌊m⌋ : ℚ) < (n : ℚ) := by linarith
    have a1 : n < ⌊m⌋ + 2 := by exact_mod_cast hlt1
    have a2 : ⌊m⌋ < n := by exact_mod_cast hlt2
    omega
  · exfalso
    have heq : m - ⌊m⌋ = 1 / 2 := le_antisymm (not_lt.mp hb) (not_lt.mp ha)
    have hlt1 : (n : ℚ) < (⌊m⌋ : ℚ) + 1 := by linarith
    have hlt2 : (⌊m⌋ : ℚ) < (n : ℚ) := by linarith
    have a1 : n < ⌊m⌋ + 1 := by exact_mod_cast hlt1
    have a2 : ⌊m⌋ < n := by exact_mod_cast hlt2
    omega
  · exfalso
    have heq : m - ⌊m⌋ = 1 / 2 := le_antisymm (not_lt.mp hb) (not_lt.mp ha)
    have hlt1 : (n : ℚ) < (⌊m⌋ : ℚ) + 1 := by linarith
    have hlt2 : (⌊m⌋ : ℚ) < (n : ℚ) := by linarith
    have a1 : n < ⌊m⌋ + 1 := by exact_mod_cast hlt1
    have a2 : ⌊m⌋ < n := by exact_mod_cast hlt2
    omega

theorem roundHalfEven_abs_sub_le (m : ℚ) : |(roundHalfEven m : ℚ) - m| ≤ 1 / 2 := by
  have hf1 : (⌊m⌋ : ℚ) ≤ m := Int.floor_le m
  have hf2 : m < (⌊m⌋ : ℚ) + 1 := Int.lt_floor_add_one m
  unfold roundHalfEven
  simp only []
  rw [abs_le]
  split_ifs with ha hb hc
  · constructor <;> linarith
  · push_cast; constructor <;> linarith
  · have heq : m - ⌊m⌋ = 1 / 2 := le_antisymm (not_lt.mp hb) (not_lt.mp ha)
    constructor <;> linarith
  · have heq : m - ⌊m⌋ = 1 / 2 := le_antisymm (not_lt.mp hb) (not_lt.mp ha)
    push_cast; constructor <;> linarith

theorem roundHalfEven_nonneg (m : ℚ) (h : 0 ≤ m) : 0 ≤ roundHalfEven m := by
  have hf : 0 ≤ ⌊m⌋ := Int.floor_nonneg.mpr h
  unfold roundHalfEven
  simp only []
  split_ifs <;> omega

theorem roundFloat64_nonneg (q : ℚ) (h : 0 ≤ q) : 0 ≤ roundFloat64 q := by
  unfold roundFloat64
  simp only []
  have hu : (0 : ℚ) < (2 : ℚ) ^ (max (Int.log 2 |q|) (-1022) - 52) := by positivity
  have hm : 0 ≤ roundHalfEven (q / (2 : ℚ) ^ (max (Int.log 2 |q|) (-1022) - 52)) :=
    roundHalfEven_nonneg _ (div_nonneg h (le_of_lt hu))
  have : (0 : ℚ) ≤ (roundHalfEven (q / (2 : ℚ) ^ (max (Int.log 2 |q|) (-1022) - 52)) : ℚ) := by
    exact_mod_cast hm
  exact mul_nonneg this (le_of_lt hu)

theorem log_two_eq (q : ℚ) (e : Int) (h1 : (2 : ℚ) ^ e ≤ q) (h2 : q < (2 : ℚ) ^ (e + 1)) :
    Int.log 2 q = e := by
  have hq : 0 < q := lt_of_lt_of_le (by positivity) h1
  have a1 : e ≤ Int.log 2 q := (Int.zpow_le_iff_le_log (by norm_num) hq).mp (by exact_mod_cast h1)
  have a2 : Int.log 2 q < e + 1 := (Int.lt_zpow_iff_log_lt (by norm_num) hq).mp (by exact_mod_cast h2)
  omega

theorem roundFloat64_of_close (q : ℚ) (e n : Int) (h1 : (2 : ℚ) ^ e ≤ q)
    (h2 : q < (2 : ℚ) ^ (e + 1)) (he : -1022 ≤ e)
    (hn : |q / (2 : ℚ) ^ (e - 52) - n| < 1 / 2) :
    roundFloat64 q = (n : ℚ) * (2 : ℚ) ^ (e - 52) := by
  have hq : 0 < q := lt_of_lt_of_le (by positivity) h1
  unfold roundFloat64
  simp only []
  rw [abs_of_pos hq, log_two_eq q e h1 h2, max_eq_left he, roundHalfEven_of_close _ n hn]

theorem roundFloat64_error (q : ℚ) (e : Int) (h1 : 0 < q) (h2 : q < (2 : ℚ) ^ (e + 1))
    (he : -1022 ≤ e) : |roundFloat64 q - q| ≤ (2 : ℚ) ^ (e - 53) := by
  unfold roundFloat64
  simp only []
  rw [abs_of_pos h1]
  have hlog : Int.log 2 q ≤ e := by
    have : Int.log 2 q < e + 1 :=
      (Int.lt_zpow_iff_log_lt (by norm_num) h1).mp (by exact_mod_cast h2)
    omega
  have hmax : max (Int.log 2 q) (-1022) ≤ e := max_le hlog he
  generalize max (Int.log 2 q) (-1022) = e' at hmax
  have hu : (0 : ℚ) < (2 : ℚ) ^ (e' - 52) := by positivity
  have hr := roundHalfEven_abs_sub_le (q / (2 : ℚ) ^ (e' - 52))
  have heq : (roundHalfEven (q / (2 : ℚ) ^ (e' - 52)) : ℚ) * (2 : ℚ) ^ (e' - 52) - q
      = ((roundHalfEven (q / (2 : ℚ) ^ (e' - 52)) : ℚ) - q / (2 : ℚ) ^ (e' - 52))
        * (2 : ℚ) ^ (e' - 52) := by
    field_simp
  rw [heq, abs_mul, abs_of_pos hu]
  have hle : (2 : ℚ) ^ (e' - 52) ≤ (2 : ℚ) ^ (e - 52) :=
    zpow_le_zpow_right₀ (by norm_num) (by omega)
  have h53 : (2 : ℚ) ^ (e - 53) = 1 / 2 * (2 : ℚ) ^ (e - 52) := by
    have : e - 52 = (e - 53) + 1 := by omega
    rw [this, zpow_add_one₀ (by norm_num)]
    ring
  rw [h53]
  calc |(roundHalfEven (q / (2 : ℚ) ^ (e' - 52)) : ℚ) - q / (2 : ℚ) ^ (e' - 52)|
        * (2 : ℚ) ^ (e' - 52)
      ≤ 1 / 2 * (2 : ℚ) ^ (e' - 52) := mul_le_mul_of_nonneg_right hr (le_of_lt hu)
    _ ≤ 1 / 2 * (2 : ℚ) ^ (e - 52) := by
        apply mul_le_mul_of_nonneg_left hle (by norm_num)

theorem roundFloat64_zero : roundFloat64 0 = 0 := by
  unfold roundFloat64
  simp only []
  rw [zero_div, roundHalfEven_of_close 0 0 (by norm_num)]
  simp

theorem roundFloat64_natCast (x : ℕ) (hx : x < 2 ^ 53) : roundFloat64 (x : ℚ) = (x : ℚ) := by
  rcases Nat.eq_zero_or_pos x with h0 | hpos
  · subst h0; simpa using roundFloat64_zero
  · have hx0 : x ≠ 0 := Nat.pos_iff_ne_zero.mp hpos
    have hlo : 2 ^ Nat.log 2 x ≤ x := Nat.pow_log_le_self 2 hx0
    have hhi : x < 2 ^ (Nat.log 2 x + 1) := Nat.lt_pow_succ_log_self (by norm_num) x
    have he : Nat.log 2 x < 53 := Nat.log_lt_of_lt_pow hx0 hx
    generalize Nat.log 2 x = e at hlo hhi he
    have hz : (2 : ℚ) ^ ((e : Int) - 52) = ((2 : ℚ) ^ (52 - e))⁻¹ := by
      have : ((e : Int) - 52) = -((52 - e : ℕ) : Int) := by omega
      rw [this, zpow_neg, zpow_natCast]
    have hpos2 : (0 : ℚ) < (2 : ℚ) ^ (52 - e) := by positivity
    have key := roundFloat64_of_close (x : ℚ) (e : Int) ((x * 2 ^ (52 - e) : ℕ) : Int)
      (by rw [zpow_natCast]; exact_mod_cast hlo)
      (by
        have : ((e : Int) + 1) = ((e + 1 : ℕ) : Int) := by omega
        rw [this, zpow_natCast]; exact_mod_cast hhi)
      (by omega)
      (by
        rw [hz]
        have : (x : ℚ) / ((2 : ℚ) ^ (52 - e))⁻¹ - (((x * 2 ^ (52 - e) : ℕ) : Int) : ℚ) = 0 := by
          push_cast
          field_simp
        rw [this]; norm_num)
    rw [key, hz]
    push_cast
    field_simp

theorem ceil_roundFloat64_div_aux (d r : ℕ) (hr : r < 100) (hx : 100 * d + r < 100 * 2 ^ 46) :
    ⌈roundFloat64 (((100 * d + r : ℕ) : ℚ) / 100)⌉ = ⌈((100 * d + r : ℕ) : ℚ) / 100⌉ := by
  have hy : ((100 * d + r : ℕ) : ℚ) / 100 = (d : ℚ) + (r : ℚ) / 100 := by
    push_cast; field_simp; ring
  rw [hy]
  rcases Nat.eq_zero_or_pos r with hz | hz
  · subst hz
    have : (d : ℚ) + ((0 : ℕ) : ℚ) / 100 = (d : ℚ) := by simp
    rw [this, roundFloat64_natCast d (by omega)]
  · have hr1 : (1 : ℚ) ≤ (r : ℚ) := by exact_mod_cast hz
    have hr2 : (r : ℚ) ≤ 99 := by
      have : r ≤ 99 := by omega
      exact_mod_cast this
    have hd0 : (0 : ℚ) ≤ (d : ℚ) := by positivity
    have hypos : (0 : ℚ) < (d : ℚ) + (r : ℚ) / 100 := by linarith
    have hylt : (d : ℚ) + (r : ℚ) / 100 < (2 : ℚ) ^ ((45 : Int) + 1) := by
      have h1 : (d : ℚ) + 1 ≤ 2 ^ 46 := by
        have : d + 1 ≤ 2 ^ 46 := by omega
        exact_mod_cast this
      have h2 : ((2 : ℚ) ^ ((45 : Int) + 1)) = 2 ^ 46 := by norm_num
      rw [h2]; linarith
    have herr := roundFloat64_error ((d : ℚ) + (r : ℚ) / 100) 45 hypos hylt (by norm_num)
    have h8 : ((2 : ℚ) ^ ((45 : Int) - 53)) = 1 / 256 := by norm_num
    rw [h8] at herr
    have herr' := abs_le.mp herr
    have hc1 : ⌈(d : ℚ) + (r : ℚ) / 100⌉ = (d : Int) + 1 := by
      rw [Int.ceil_eq_iff]
      constructor
      · have : (((d : Int) + 1 : Int) : ℚ) = (d : ℚ) + 1 := by push_cast; rfl
        rw [this]; linarith
      · have : (((d : Int) + 1 : Int) : ℚ) = (d : ℚ) + 1 := by push_cast; rfl
        rw [this]; linarith
    rw [hc1, Int.ceil_eq_iff]
    have hcast : (((d : Int) + 1 : Int) : ℚ) = (d : ℚ) + 1 := by push_cast; rfl
    rw [hcast]
    constructor <;> linarith [herr'.1, herr'.2]

theorem ceil_roundFloat64_div (x : ℕ) (hx : x < 100 * 2 ^ 46) :
    ⌈roundFloat64 ((x : ℚ) / 100)⌉ = ⌈(x : ℚ) / 100⌉ := by
  have hd := Nat.div_add_mod x 100
  have hr := Nat.mod_lt x (by norm_num : 100 > 0)
  have := ceil_roundFloat64_div_aux (x / 100) (x % 100) hr (by omega)
  rw [hd] at this
  exact this

theorem roundHalfEven_intCast (n : Int) : roundHalfEven (n : ℚ) = n :=
  roundHalfEven_of_close (n : ℚ) n (by norm_num)

theorem roundHalfEven_mono (a b : ℚ) (h : a ≤ b) : roundHalfEven a ≤ roundHalfEven b := by
  have hf : ⌊a⌋ ≤ ⌊b⌋ := Int.floor_mono h
  rcases lt_or_eq_of_le hf with hlt | heq
  · have h1 : roundHalfEven a ≤ ⌊a⌋ + 1 := by
      unfold roundHalfEven
      simp only []
      split_ifs <;> omega
    have h2 : ⌊b⌋ ≤ roundHalfEven b := by
      unfold roundHalfEven
      simp only []
      split_ifs <;> omega
    omega
  · unfold roundHalfEven
    simp only []
    rw [heq]
    split_ifs <;> first | omega | (exfalso; linarith)

theorem zpow_two_split (e : Int) (k : ℕ) :
    (2 : ℚ) ^ (e - 52 + (k : Int)) = ((2 ^ k : Int) : ℚ) * (2 : ℚ) ^ (e - 52) := by
  rw [zpow_add₀ (by norm_num), zpow_natCast]
  push_cast
  ring

/-- Rounding to `float64` is monotone on non-negative values. -/
theorem roundFloat64_mono (a b : ℚ) (ha : 0 ≤ a) (h : a ≤ b) :
    roundFloat64 a ≤ roundFloat64 b := by
  rcases eq_or_lt_of_le ha with h0 | hpos
  · rw [← h0, roundFloat64_zero]
    exact roundFloat64_nonneg b (le_trans ha h)
  · have hb : 0 < b := lt_of_lt_of_le hpos h
    have hlog : Int.log 2 a ≤ Int.log 2 b := Int.log_mono_right hpos h
    have ha2 : a < (2 : ℚ) ^ (Int.log 2 a + 1) := by
      exact_mod_cast Int.lt_zpow_succ_log_self (by norm_num : 1 < 2) a
    have hb2 : (2 : ℚ) ^ (Int.log 2 b) ≤ b := by
      exact_mod_cast Int.zpow_log_le_self (by norm_num : 1 < 2) hb
    unfold roundFloat64
    simp only []
    rw [abs_of_pos hpos, abs_of_pos hb]
    generalize Int.log 2 a = la at hlog ha2
    generalize Int.log 2 b = lb at hlog hb2
    have hua : (0 : ℚ) < (2 : ℚ) ^ (max la (-1022) - 52) := by positivity
    have hub : (0 : ℚ) < (2 : ℚ) ^ (max lb (-1022) - 52) := by positivity
    rcases eq_or_lt_of_le (max_le_max hlog (le_refl (-1022 : Int))) with he | he
    · rw [← he]
      have hm := roundHalfEven_mono _ _ (div_le_div_of_nonneg_right h (le_of_lt hua))
      have hm' : (roundHalfEven (a / (2 : ℚ) ^ (max la (-1022) - 52)) : ℚ)
          ≤ (roundHalfEven (b / (2 : ℚ) ^ (max la (-1022) - 52)) : ℚ) := by exact_mod_cast hm
      exact mul_le_mul_of_nonneg_right hm' (le_of_lt hua)
    · have hlb : max lb (-1022) = lb := by
        apply max_eq_left
        have := le_max_right la (-1022)
        rcases le_total lb (-1022) with h1 | h1
        · rw [max_eq_right h1] at he; omega
        · exact h1
      rw [hlb] at he hub ⊢
      have hea : la + 1 ≤ max la (-1022) + 1 := by
        have := le_max_left la (-1022)
        omega
      generalize max la (-1022) = ea at he hea hua ⊢
      -- the rounded `a` stays at or below `2 ^ (ea + 1)`
      have hA : (roundHalfEven (a / (2 : ℚ) ^ (ea - 52)) : ℚ) * (2 : ℚ) ^ (ea - 52)
          ≤ (2 : ℚ) ^ (ea + 1) := by
        have hsplit := zpow_two_split ea 53
        have hexp : ea - 52 + ((53 : ℕ) : Int) = ea + 1 := by omega
        rw [hexp] at hsplit
        have ha3 : a ≤ (2 : ℚ) ^ (ea + 1) :=
          le_trans (le_of_lt ha2) (zpow_le_zpow_right₀ (by norm_num) hea)
        have hdiv : a / (2 : ℚ) ^ (ea - 52) ≤ ((2 ^ 53 : Int) : ℚ) := by
          rw [div_le_iff₀ hua, ← hsplit]; exact ha3
        have hm := roundHalfEven_mono _ _ hdiv
        rw [roundHalfEven_intCast] at hm
        have hm' : (roundHalfEven (a / (2 : ℚ) ^ (ea - 52)) : ℚ) ≤ ((2 ^ 53 : Int) : ℚ) := by
          exact_mod_cast hm
        rw [hsplit]
        exact mul_le_mul_of_nonneg_right hm' (le_of_lt hua)
      -- the rounded `b` stays at or above `2 ^ lb`
      have hB : (2 : ℚ) ^ lb
          ≤ (roundHalfEven (b / (2 : ℚ) ^ (lb - 52)) : ℚ) * (2 : ℚ) ^ (lb - 52) := by
        have hsplit := zpow_two_split lb 52
        have hexp : lb - 52 + ((52 : ℕ) : Int) = lb := by omega
        rw [hexp] at hsplit
        have hdiv : ((2 ^ 52 : Int) : ℚ) ≤ b / (2 : ℚ) ^ (lb - 52) := by
          rw [le_div_iff₀ hub, ← hsplit]; exact hb2
        have hm := roundHalfEven_mono _ _ hdiv
        rw [roundHalfEven_intCast] at hm
        have hm' : ((2 ^ 52 : Int) : ℚ) ≤ (roundHalfEven (b / (2 : ℚ) ^ (lb - 52)) : ℚ) := by
          exact_mod_cast hm
        rw [hsplit]
        exact mul_le_mul_of_nonneg_right hm' (le_of_lt hub)
      have hmid : (2 : ℚ) ^ (ea + 1) ≤ (2 : ℚ) ^ lb :=
        zpow_le_zpow_right₀ (by norm_num) (by omega)
      linarith

/-- The index computed in `float64` grows with the rank. -/
theorem floatIndex_mono (n : ℕ) (p q : ℚ) (h0 : 0 ≤ p) (hpq : p ≤ q) :
    ⌈roundFloat64 (roundFloat64 (roundFloat64 (n : ℚ) * p) / 100)⌉
      ≤ ⌈roundFloat64 (roundFloat64 (roundFloat64 (n : ℚ) * q) / 100)⌉ := by
  have hn : 0 ≤ roundFloat64 (n : ℚ) := roundFloat64_nonneg _ (by positivity)
  have h1 : roundFloat64 (n : ℚ) * p ≤ roundFloat64 (n : ℚ) * q :=
    mul_le_mul_of_nonneg_left hpq hn
  have h2 := roundFloat64_mono _ _ (mul_nonneg hn h0) h1
  have h3 : 0 ≤ roundFloat64 (roundFloat64 (n : ℚ) * p) :=
    roundFloat64_nonneg _ (mul_nonneg hn h0)
  have h4 : roundFloat64 (roundFloat64 (n : ℚ) * p) / 100
      ≤ roundFloat64 (roundFloat64 (n : ℚ) * q) / 100 :=
    div_le_div_of_nonneg_right h2 (by norm_num)
  exact Int.ceil_mono (roundFloat64_mono _ _ (div_nonneg h3 (by norm_num)) h4)

namespace Reader

/-- The three branches after the index is known pick the sample at the clamped rank. -/
theorem pick_clamped (S : List ℚ) (index : Int) (hS : S ≠ []) (hidx0 : 0 ≤ index) :
    1 ≤ max 1 (min (S.length : Int) index) ∧ max 1 (min (S.length : Int) index) ≤ S.length ∧
    ∃ x, S[(max 1 (min (S.length : Int) index) - 1).toNat]? = some x ∧
      (if index = 0 then (S[0]?).map F64.fin
        else if index ≥ (S.length : Int) then (S[S.length - 1]?).map F64.fin
        else if index - 1 < 0 then none
        else (S[(index - 1).toNat]?).map F64.fin) = some (F64.fin x) := by
  have hlen : 0 < S.length := List.length_pos.mpr hS
  refine ⟨by omega, by omega, ?_⟩
  by_cases hz : index = 0
  · obtain ⟨x, hx⟩ := getElem?_of_lt_length S 0 hlen
    refine ⟨x, ?_, ?_⟩
    · have : (max 1 (min (S.length : Int) index) - 1).toNat = 0 := by omega
      rw [this]; exact hx
    · rw [if_pos hz, hx]; rfl
  · rw [if_neg hz]
    by_cases hge : index ≥ (S.length : Int)
    · obtain ⟨x, hx⟩ := getElem?_of_lt_length S (S.length - 1) (by omega)
      refine ⟨x, ?_, ?_⟩
      · have : (max 1 (min (S.length : Int) index) - 1).toNat = S.length - 1 := by omega
        rw [this]; exact hx
      · rw [if_pos hge, hx]; rfl
    · rw [if_neg hge, if_neg (by omega)]
      obtain ⟨x, hx⟩ := getElem?_of_lt_length S (index - 1).toNat (by omega)
      refine ⟨x, ?_, ?_⟩
      · have : (max 1 (min (S.length : Int) index) - 1).toNat = (index - 1).toNat := by omega
        rw [this]; exact hx
      · rw [hx]; rfl

/-- For a non-negative rank the estimator, its index computed in `float64`, returns the
sample whose 0-based index is the clamped rank less one. -/
theorem calculatePercentileFloat_at (S : List ℚ) (p : ℚ) (hS : S ≠ []) (h0 : 0 ≤ p) :
    ∃ k, ∃ hk : k < S.length, (k : Int) = nearestRankFloat S.length p - 1 ∧
      calculatePercentileFloat S p = some (F64.fin (S.get ⟨k, hk⟩)) := by
  have hlen : 0 < S.length := List.length_pos.mpr hS
  have hidx0 : (0 : Int) ≤
      ⌈roundFloat64 (roundFloat64 (roundFloat64 (S.length : ℚ) * p) / 100)⌉ := by
    apply Int.ceil_nonneg
    apply roundFloat64_nonneg
    apply div_nonneg _ (by norm_num)
    apply roundFloat64_nonneg
    apply mul_nonneg _ h0
    apply roundFloat64_nonneg
    positivity
  obtain ⟨h1, h2, x, hx, hpick⟩ := pick_clamped S _ hS hidx0
  have hk : (nearestRankFloat S.length p - 1).toNat < S.length := by
    unfold nearestRankFloat
    omega
  refine ⟨(nearestRankFloat S.length p - 1).toNat, hk, ?_, ?_⟩
  · unfold nearestRankFloat
    omega
  · have hx' : S[(nearestRankFloat S.length p - 1).toNat]? = some x := hx
    rw [List.getElem?_eq_getElem hk] at hx'
    have hxe : S.get ⟨(nearestRankFloat S.length p - 1).toNat, hk⟩ = x := by
      simpa using hx'
    rw [hxe]
    unfold calculatePercentileFloat
    rw [if_neg (by omega)]
    exact hpick

/-- The clamped rank computed in `float64` grows with the percentile rank. -/
theorem nearestRankFloat_mono (n : Nat) (p q : ℚ) (h0 : 0 ≤ p) (hpq : p ≤ q) :
    nearestRankFloat n p ≤ nearestRankFloat n q := by
  unfold nearestRankFloat
  have h := floatIndex_mono n p q h0 hpq
  omega

/-- Monotonicity in the rank of the estimator as the source evaluates it, on ascending
input. -/
theorem calculatePercentileFloat_mono_aux (S : List ℚ) (p q : ℚ) (hS : S ≠ [])
    (hasc : S.Sorted (fun a b => a ≤ b)) (h0 : 0 ≤ p) (hpq : p ≤ q) :
    ∃ x y, calculatePercentileFloat S p = some (F64.fin x) ∧
      calculatePercentileFloat S q = some (F64.fin y) ∧ x ≤ y := by
  obtain ⟨k, hk, hkr, hkp⟩ := calculatePercentileFloat_at S p hS h0
  obtain ⟨l, hl, hlr, hlq⟩ := calculatePercentileFloat_at S q hS (le_trans h0 hpq)
  refine ⟨_, _, hkp, hlq, ?_⟩
  have hm := nearestRankFloat_mono S.length p q h0 hpq
  have hkl : k ≤ l := by omega
  rcases Nat.lt_or_ge k l with h | h
  · exact List.Sorted.rel_get_of_lt hasc (a := ⟨k, hk⟩) (b := ⟨l, hl⟩) h
  · have : k = l := by omega
    subst this; exact le_refl _

end Reader

/-! ### Monotonicity and the analysis statistics -/

namespace Reader

/-- For a non-negative rank the estimator returns the sample whose 0-based index is the
clamped nearest rank less one. -/
theorem calculatePercentile_at (S : List ℚ) (p : ℚ) (hS : S ≠ []) (h0 : 0 ≤ p) :
    ∃ k, ∃ hk : k < S.length, (k : Int) = nearestRank S.length p - 1 ∧
      calculatePercentile S p = some (F64.fin (S.get ⟨k, hk⟩)) := by
  have hlen : 0 < S.length := List.length_pos.mpr hS
  have hidx0 : (0 : Int) ≤ ⌈(S.length : ℚ) * p / 100⌉ := by
    apply Int.ceil_nonneg
    positivity
  unfold calculatePercentile nearestRank
  rw [if_neg (by omega)]
  simp only []
  generalize ⌈(S.length : ℚ) * p / 100⌉ = index at hidx0 ⊢
  by_cases hz : index = 0
  · refine ⟨0, hlen, by omega, ?_⟩
    rw [if_pos hz, List.getElem?_eq_getElem hlen]; rfl
  · rw [if_neg hz]
    by_cases hge : index ≥ (S.length : Int)
    · refine ⟨S.length - 1, by omega, by omega, ?_⟩
      rw [if_pos hge, List.getElem?_eq_getElem (by omega)]; rfl
    · rw [if_neg hge, if_neg (by omega)]
      refine ⟨(index - 1).toNat, by omega, by omega, ?_⟩
      rw [List.getElem?_eq_getElem (by omega)]; rfl

/-- The clamped nearest rank grows with the percentile rank. -/
theorem nearestRank_mono (n : Nat) (p q : ℚ) (hpq : p ≤ q) :
    nearestRank n p ≤ nearestRank n q := by
  unfold nearestRank
  have h : ⌈(n : ℚ) * p / 100⌉ ≤ ⌈(n : ℚ) * q / 100⌉ := by
    apply Int.ceil_mono
    apply div_le_div_of_nonneg_right _ (by norm_num)
    exact mul_le_mul_of_nonneg_left hpq (by positivity)
  omega

/-- Monotonicity of the estimator in the rank, on ascending input. -/
theorem calculatePercentile_mono_aux (S : List ℚ) (p q : ℚ) (hS : S ≠ [])
    (hasc : S.Sorted (fun a b => a ≤ b)) (h0 : 0 ≤ p) (hpq : p ≤ q) :
    ∃ x y, calculatePercentile S p = some (F64.fin x) ∧
      calculatePercentile S q = some (F64.fin y) ∧ x ≤ y := by
  obtain ⟨k, hk, hkr, hkp⟩ := calculatePercentile_at S p hS h0
  obtain ⟨l, hl, hlr, hlq⟩ := calculatePercentile_at S q hS (le_trans h0 hpq)
  refine ⟨_, _, hkp, hlq, ?_⟩
  have hm := nearestRank_mono S.length p q hpq
  have hkl : k ≤ l := by omega
  rcases Nat.lt_or_ge k l with h | h
  · exact List.Sorted.rel_get_of_lt hasc (a := ⟨k, hk⟩) (b := ⟨l, hl⟩) h
  · have : k = l := by omega
    subst this; exact le_refl _

/-- For a non-negative rank the estimator as the source evaluates it does not panic. -/
theorem calculatePercentileFloat_isSome (S : List ℚ) (p : ℚ) (h0 : 0 ≤ p) :
    ∃ v, calculatePercentileFloat S p = some v := by
  by_cases hS : S = []
  · subst hS
    exact ⟨F64.nan, by simp [calculatePercentileFloat]⟩
  · obtain ⟨k, hk, _, h⟩ := calculatePercentileFloat_at S p hS h0
    exact ⟨_, h⟩

/-- The reduction at the end of `runEach`, once the six percentiles are known. -/
theorem reduceMetric_eq (met : rawOverallMetric) (v50 v90 v99 w50 w90 w99 : F64)
    (h50 : calculatePercentileFloat (sortFloat64s met.durations) 50 = some v50)
    (h90 : calculatePercentileFloat (sortFloat64s met.durations) 90 = some v90)
    (h99 : calculatePercentileFloat (sortFloat64s met.durations) 99 = some v99)
    (g50 : calculatePercentileFloat (sortFloat64s met.analyzeResult) 50 = some w50)
    (g90 : calculatePercentileFloat (sortFloat64s met.analyzeResult) 90 = some w90)
    (g99 : calculatePercentileFloat (sortFloat64s met.analyzeResult) 99 = some w99) :
    reduceMetric met = some ⟨calculateAverage (sortFloat64s met.durations), v50, v90, v99,
      calculateAverage (sortFloat64s met.analyzeResult), w50, w90, w99⟩ := by
  simp only [reduceMetric, h50, h90, h99, g50, g90, g99]


/-- The analysis half of every chunk a worker merges is empty. -/
theorem workerChunks_snd (opt : analyzeParam) (micros : Nat → Nat → Int) :
    ∀ c ∈ workerChunks opt micros, c.2 = [] := by
  intro c hc
  simp only [workerChunks, List.mem_map] at hc
  obtain ⟨s, _, rfl⟩ := hc
  simp [sortFloat64s, sampleStock]

theorem mergeStep_analyze (st : MergeState) (w : Nat)
    (h : (∀ l ∈ st.pending, ∀ c ∈ l, c.2 = []) ∧ st.met.analyzeResult = []) :
    (∀ l ∈ (mergeStep st w).pending, ∀ c ∈ l, c.2 = []) ∧
      (mergeStep st w).met.analyzeResult = [] := by
  unfold mergeStep
  split
  · next c rest hw =>
    obtain ⟨h1, h2⟩ := h
    constructor
    · intro l hl x hx
      obtain ⟨l', hl', hx'⟩ := mem_set_sub st.pending w c rest hw l hl x hx
      exact h1 l' hl' x hx'
    · have hc : c.2 = [] := h1 (c :: rest) (List.getElem?_mem hw) c (List.mem_cons_self _ _)
      simp only [h2, hc, List.append_nil]
  · exact h

theorem foldl_mergeStep_analyze (sched : List Nat) (st : MergeState)
    (h : (∀ l ∈ st.pending, ∀ c ∈ l, c.2 = []) ∧ st.met.analyzeResult = []) :
    (sched.foldl mergeStep st).met.analyzeResult = [] := by
  induction sched generalizing st with
  | nil => exact h.2
  | cons w sched ih => exact ih _ (mergeStep_analyze st w h)

/-- The analysis sequence of the shared metric is empty after any sequence of merges. -/
theorem runMerges_analyzeResult (opt : analyzeParam) (micros : Nat → Nat → Nat → Int)
    (sched : List Nat) : (runMerges opt micros sched).met.analyzeResult = [] := by
  unfold runMerges
  apply foldl_mergeStep_analyze
  constructor
  · intro l hl c hc
    simp only [MergeState.init, List.mem_map] at hl
    obtain ⟨w, _, rfl⟩ := hl
    exact workerChunks_snd opt (micros w) c hc
  · rfl

/-- C14: in every run of `runEach` (any parameters, any clock, any order of the merges that
lets every worker finish) the analysis sample sequence is empty, `runEach` returns a result,
and in it `avgExplainAnalyze`, `p50ExplainAnalyze`, `p90ExplainAnalyze` and
`p99ExplainAnalyze` are all not-a-number. -/
theorem runEach_analysis_nan (opt : analyzeParam) (micros : Nat → Nat → Nat → Int)
    (sched : List Nat) (hdone : (runMerges opt micros sched).allDone = true) :
    (runMerges opt micros sched).met.analyzeResult = [] ∧
    ∃ r, runEach opt micros sched = some r ∧
      r.avgExplainAnalyze = F64.nan ∧ r.p50ExplainAnalyze = F64.nan ∧
      r.p90ExplainAnalyze = F64.nan ∧ r.p99ExplainAnalyze = F64.nan := by
  have ha := runMerges_analyzeResult opt micros sched
  refine ⟨ha, ?_⟩
  obtain ⟨v50, h50⟩ := calculatePercentileFloat_isSome
    (sortFloat64s (runMerges opt micros sched).met.durations) 50 (by norm_num)
  obtain ⟨v90, h90⟩ := calculatePercentileFloat_isSome
    (sortFloat64s (runMerges opt micros sched).met.durations) 90 (by norm_num)
  obtain ⟨v99, h99⟩ := calculatePercentileFloat_isSome
    (sortFloat64s (runMerges opt micros sched).met.durations) 99 (by norm_num)
  have hs : sortFloat64s (runMerges opt micros sched).met.analyzeResult = [] := by
    rw [ha]; rfl
  have hnan : ∀ p : ℚ, calculatePercentileFloat
      (sortFloat64s (runMerges opt micros sched).met.analyzeResult) p = some F64.nan := by
    intro p; rw [hs]; simp [calculatePercentileFloat]
  have hr := reduceMetric_eq (runMerges opt micros sched).met v50 v90 v99 _ _ _ h50 h90 h99
    (hnan 50) (hnan 90) (hnan 99)
  have hrun : runEach opt micros sched = reduceMetric (runMerges opt micros sched).met := by
    unfold runEach
    simp only [hdone, if_true]
  rw [hr] at hrun
  refine ⟨_, hrun, ?_, rfl, rfl, rfl⟩
  · show calculateAverage (sortFloat64s (runMerges opt micros sched).met.analyzeResult) = F64.nan
    rw [hs]; simp [calculateAverage, divFloat]

/-- In a run with at least one worker and one sample per stock, the reported percentiles
are finite and ordered. -/
theorem runEach_percentiles_ordered (opt : analyzeParam) (micros : Nat → Nat → Nat → Int)
    (sched : List Nat) (hW : 1 ≤ opt.routineCount) (hK : 1 ≤ opt.samplingCount)
    (hdone : (runMerges opt micros sched).allDone = true) :
    ∃ r a b c, runEach opt micros sched = some r ∧ r.p50 = F64.fin a ∧ r.p90 = F64.fin b ∧
      r.p99 = F64.fin c ∧ a ≤ b ∧ b ≤ c := by
  have hlen := runMerges_durations_length opt micros sched hdone
  have hne : sortFloat64s (runMerges opt micros sched).met.durations ≠ [] := by
    intro h
    have h' := congrArg List.length h
    rw [sortFloat64s_length, hlen] at h'
    have h1 : 1 ≤ opt.routineCount.toNat := by omega
    have h2 : 1 ≤ opt.samplingCount.toNat := by omega
    have := Nat.mul_le_mul h1 h2
    simp only [List.length_nil] at h'
    have h3 : 10 * opt.routineCount.toNat * opt.samplingCount.toNat
        = 10 * (opt.routineCount.toNat * opt.samplingCount.toNat) := by ring
    omega
  have hsorted : (sortFloat64s (runMerges opt micros sched).met.durations).Sorted
      (fun a b => a ≤ b) := List.sorted_insertionSort _ _
  obtain ⟨a, b, h50, h90, hab⟩ := calculatePercentileFloat_mono_aux _ 50 90 hne hsorted
    (by norm_num) (by norm_num)
  obtain ⟨b', c, h90', h99, hbc⟩ := calculatePercentileFloat_mono_aux _ 90 99 hne hsorted
    (by norm_num) (by norm_num)
  have hbb : b = b' := by
    rw [h90] at h90'
    simpa using h90'
  subst hbb
  have ha := runMerges_analyzeResult opt micros sched
  have hs : sortFloat64s (runMerges opt micros sched).met.analyzeResult = [] := by
    rw [ha]; rfl
  have hnan : ∀ p : ℚ, calculatePercentileFloat
      (sortFloat64s (runMerges opt micros sched).met.analyzeResult) p = some F64.nan := by
    intro p; rw [hs]; simp [calculatePercentileFloat]
  have hr := reduceMetric_eq (runMerges opt micros sched).met _ _ _ _ _ _ h50 h90 h99
    (hnan 50) (hnan 90) (hnan 99)
  have hrun : runEach opt micros sched = reduceMetric (runMerges opt micros sched).met := by
    unfold runEach
    simp only [hdone, if_true]
  rw [hr] at hrun
  exact ⟨_, a, b, c, hrun, rfl, rfl, rfl, hab, hbc⟩

/-- Witness of C14: two workers, five samples, workers merging one after the other. -/
theorem runEach_analysis_nan_witness :
    (runMerges twoByFive tenMillis (sequentialSchedule twoByFive)).met.analyzeResult = [] ∧
    ∃ r, runEach twoByFive tenMillis (sequentialSchedule twoByFive) = some r ∧
      r.avgExplainAnalyze = F64.nan ∧ r.p50ExplainAnalyze = F64.nan ∧
      r.p90ExplainAnalyze = F64.nan ∧ r.p99ExplainAnalyze = F64.nan :=
  runEach_analysis_nan twoByFive tenMillis (sequentialSchedule twoByFive) (by decide)

/-- In a run without workers or without samples nothing is recorded and the three reported
percentiles are not-a-number. -/
theorem runEach_no_samples (opt : analyzeParam) (micros : Nat → Nat → Nat → Int)
    (sched : List Nat) (h0 : opt.routineCount ≤ 0 ∨ opt.samplingCount ≤ 0)
    (hdone : (runMerges opt micros sched).allDone = true) :
    ∃ r, runEach opt micros sched = some r ∧ r.p50 = F64.nan ∧ r.p90 = F64.nan ∧
      r.p99 = F64.nan := by
  have hlen := runMerges_durations_length opt micros sched hdone
  have hz : 10 * opt.routineCount.toNat * opt.samplingCount.toNat = 0 := by
    rcases h0 with h | h
    · have : opt.routineCount.toNat = 0 := by omega
      rw [this]; simp
    · have : opt.samplingCount.toNat = 0 := by omega
      rw [this]; simp
  rw [hz] at hlen
  have hd : sortFloat64s (runMerges opt micros sched).met.durations = [] := by
    rw [List.length_eq_zero.mp hlen]; rfl
  have ha := runMerges_analyzeResult opt micros sched
  have hs : sortFloat64s (runMerges opt micros sched).met.analyzeResult = [] := by
    rw [ha]; rfl
  have hnan : ∀ p : ℚ, calculatePercentileFloat
      (sortFloat64s (runMerges opt micros sched).met.analyzeResult) p = some F64.nan := by
    intro p; rw [hs]; simp [calculatePercentileFloat]
  have hnand : ∀ p : ℚ, calculatePercentileFloat
      (sortFloat64s (runMerges opt micros sched).met.durations) p = some F64.nan := by
    intro p; rw [hd]; simp [calculatePercentileFloat]
  have hr := reduceMetric_eq (runMerges opt micros sched).met _ _ _ _ _ _
    (hnand 50) (hnand 90) (hnand 99) (hnan 50) (hnan 90) (hnan 99)
  have hrun : runEach opt micros sched = reduceMetric (runMerges opt micros sched).met := by
    unfold runEach
    simp only [hdone, if_true]
  rw [hr] at hrun
  exact ⟨_, hrun, rfl, rfl, rfl⟩

end Reader

/-! ### Totality of the segment loop -/

namespace Seeder

/-- Running the loop body at given bounds never runs out of fuel: it takes none. -/
theorem runBounds_ne_fuel (accNos : List String) (p : portfolioGenData) (draw : Int → RowDraws)
    (bs : List (Int × Int)) (acc : List (List UserData)) :
    runBounds accNos p draw bs acc ≠ .error Fault.fuel := by
  induction bs generalizing acc with
  | nil => simp [runBounds]
  | cons ce rest ih =>
    obtain ⟨c, e⟩ := ce
    simp only [runBounds]
    split
    · simp
    · split
      · simp
      · exact ih _

/-- With enough fuel the segment loop is the loop body run at the bounds `segmentBounds`
lists, and these bounds stay inside the segment. -/
theorem segmentLoop_eq_runBounds (accNos : List String) (p : portfolioGenData)
    (draw : Int → RowDraws) (B E : Nat) (hB : 1 ≤ B) (hE : p.endIdx = (E : Int))
    (hlen : E ≤ accNos.length) :
    ∀ (fuel c : Nat) (acc : List (List UserData)), c ≤ E → (E - c) / B < fuel →
      (c : Int) + (((E - c) / B + 1 : Nat) : Int) * (B : Int) < 2 ^ 63 →
      segmentLoop accNos (B : Int) p draw fuel (c : Int) ((c : Int) + (B : Int)) acc =
        runBounds accNos p draw
          (segmentBounds (B : Int) p fuel (c : Int) ((c : Int) + (B : Int))) acc ∧
      (segmentBounds (B : Int) p fuel (c : Int) ((c : Int) + (B : Int))).length
        = (E - c) / B + 1 ∧
      ∀ ce ∈ segmentBounds (B : Int) p fuel (c : Int) ((c : Int) + (B : Int)),
        (c : Int) ≤ ce.1 ∧ ce.1 ≤ ce.2 ∧ ce.2 ≤ p.endIdx ∧
          (goSlice accNos ce.1 ce.2).isSome = true := by
  intro fuel
  induction fuel with
  | zero => intro c acc _ h; exact absurd h (Nat.not_lt_zero _)
  | succ fuel ih =>
    intro c acc hcE hfuel hov
    by_cases hlast : (c : Int) + (B : Int) > p.endIdx
    · have hlt : E - c < B := by omega
      have hs := goSlice_natCast accNos c E hcE hlen
      refine ⟨?_, ?_, ?_⟩
      · simp only [segmentLoop, segmentBounds, hlast, if_true, decide_True, runBounds]
      · simp only [segmentBounds, hlast, if_true, decide_True, List.length_singleton]
        rw [Nat.div_eq_of_lt hlt]
      · intro ce hce
        simp only [segmentBounds, hlast, if_true, decide_True, List.mem_singleton] at hce
        subst hce
        refine ⟨le_refl _, ?_, le_refl _, ?_⟩
        · show (c : Int) ≤ p.endIdx
          rw [hE]; omega
        · show (goSlice accNos (c : Int) p.endIdx).isSome = true
          rw [hE, hs]; rfl
    · have hle : c + B ≤ E := by omega
      have hdiv : (E - c) / B = (E - (c + B)) / B + 1 := by
        have : E - c = (E - (c + B)) + B := by omega
        rw [this, Nat.add_div_right _ (by omega)]
      have hs : goSlice accNos (c : Int) ((c : Int) + (B : Int)) =
          some ((accNos.drop c).take B) := by
        have := goSlice_natCast accNos c (c + B) (by omega) (by omega)
        rw [Nat.add_sub_cancel_left] at this
        rw [← this]; push_cast; rfl
      have hcast : ((c + B : Nat) : Int) = (c : Int) + (B : Int) := by push_cast; rfl
      have hov' : ((c + B : Nat) : Int) + (((E - (c + B)) / B + 1 : Nat) : Int) * (B : Int)
          < 2 ^ 63 := by
        have h := hov
        rw [hdiv] at h
        push_cast at h ⊢
        linarith
      have hB2 : (c : Int) + (B : Int) + (B : Int) < 2 ^ 63 := by
        have h := hov
        rw [hdiv] at h
        have hd : (0 : Int) ≤ (((E - (c + B)) / B : Nat) : Int) * (B : Int) := by positivity
        push_cast at h hd
        linarith
      have hb : segmentBounds (B : Int) p (fuel + 1) (c : Int) ((c : Int) + (B : Int)) =
          ((c : Int), (c : Int) + (B : Int)) ::
            segmentBounds (B : Int) p fuel ((c : Int) + (B : Int))
              ((c : Int) + (B : Int) + (B : Int)) := by
        simp only [segmentBounds, hlast, if_false, decide_False,
          wrapInt64_eq ((c : Int) + (B : Int)) (by omega) (by omega),
          wrapInt64_eq ((c : Int) + (B : Int) + (B : Int)) (by omega) (by omega)]
        simp
      rw [hb]
      refine ⟨?_, ?_, ?_⟩
      · simp only [segmentLoop, hlast, if_false, decide_False, runBounds,
          wrapInt64_eq ((c : Int) + (B : Int)) (by omega) (by omega),
          wrapInt64_eq ((c : Int) + (B : Int) + (B : Int)) (by omega) (by omega)]
        rw [hs]
        simp only []
        split
        · rfl
        · next rows _ =>
          have h1 := (ih (c + B) (acc ++ [rows]) hle (by omega) hov').1
          rw [hcast] at h1
          simpa using h1
      · have h2 := (ih (c + B) acc hle (by omega) hov').2.1
        rw [hcast] at h2
        rw [List.length_cons, h2, hdiv]
      · intro ce hce
        rcases List.mem_cons.mp hce with h | h
        · subst h
          refine ⟨le_refl _, ?_, ?_, ?_⟩
          · show (c : Int) ≤ (c : Int) + (B : Int)
            omega
          · show (c : Int) + (B : Int) ≤ p.endIdx
            omega
          · show (goSlice accNos (c : Int) ((c : Int) + (B : Int))).isSome = true
            rw [hs]; rfl
        · have h3 := (ih (c + B) acc hle (by omega) hov').2.2
          rw [hcast] at h3
          obtain ⟨a1, a2, a3, a4⟩ := h3 ce h
          exact ⟨by omega, a2, a3, a4⟩


/-- C13 (amended): under `0 ≤ startIdx ≤ endIdx ≤ len(accNos)`, `batchRow ≥ 1` and
`startIdx + ((endIdx - startIdx) div batchRow + 1)·batchRow < 2 ^ 63` (no sum
`currIdx + batchRow` the loop forms overflows `int`) the segment loop
of `distribute` is total: it makes `(endIdx - startIdx) div batchRow + 1` iterations, so any
larger fuel is not used up; in every iteration `startIdx ≤ currIdx ≤ endIdx ≤ p.endIdx` and
the slice `accNos[currIdx:endIdx]` is in range; the loop is the loop body run at these
bounds, and it can only stop early by the panic on an identifier without a numeric id. -/
theorem segmentLoop_total (accNos : List String) (p : portfolioGenData)
    (batchRow : Int) (draw : Int → RowDraws) (fuel : Nat)
    (h0 : 0 ≤ p.startIdx) (h1 : p.startIdx ≤ p.endIdx) (h2 : p.endIdx ≤ (accNos.length : Int))
    (hB : 1 ≤ batchRow)
    (hov : p.startIdx + ((p.endIdx - p.startIdx) / batchRow + 1) * batchRow < 2 ^ 63)
    (hfuel : (p.endIdx - p.startIdx) / batchRow < (fuel : Int)) :
    ((distributeBounds batchRow p fuel).length : Int)
      = (p.endIdx - p.startIdx) / batchRow + 1 ∧
    (∀ ce ∈ distributeBounds batchRow p fuel,
      p.startIdx ≤ ce.1 ∧ ce.1 ≤ ce.2 ∧ ce.2 ≤ p.endIdx ∧
        (goSlice accNos ce.1 ce.2).isSome = true) ∧
    distributeSegment fuel accNos batchRow p draw =
      runBounds accNos p draw
        (distributeBounds batchRow p fuel) [] ∧
    distributeSegment fuel accNos batchRow p draw ≠ .error Fault.fuel ∧
    (distributeSegment fuel accNos batchRow p draw = .error Fault.panic →
      ∃ a ∈ (accNos.drop p.startIdx.toNat).take (p.endIdx - p.startIdx).toNat,
        userId a = none) := by
  have hsB : p.startIdx + batchRow < 2 ^ 63 := by
    have hq : 0 ≤ (p.endIdx - p.startIdx) / batchRow := Int.ediv_nonneg (by omega) (by omega)
    nlinarith [mul_nonneg hq (by omega : (0 : Int) ≤ batchRow)]
  unfold distributeBounds
  rw [wrapInt64_eq (p.startIdx + batchRow) (by omega) (by omega)]
  obtain ⟨s, hs⟩ := Int.eq_ofNat_of_zero_le h0
  obtain ⟨E, hE⟩ := Int.eq_ofNat_of_zero_le (le_trans h0 h1)
  obtain ⟨B, hBn⟩ := Int.eq_ofNat_of_zero_le (le_trans (by decide : (0 : Int) ≤ 1) hB)
  subst hBn
  rw [hs, hE] at h1 hfuel hov
  rw [hE] at h2
  have hsE : s ≤ E := by omega
  have hEl : E ≤ accNos.length := by omega
  have hB1 : 1 ≤ B := by omega
  have e1 : ((s : Int)).toNat = s := by omega
  have e2 : ((E : Int) - (s : Int)).toNat = E - s := by omega
  have hc : ((E : Int) - (s : Int)) = ((E - s : Nat) : Int) := by omega
  have hf : (E - s) / B < fuel := by
    rw [hc] at hfuel
    exact_mod_cast hfuel
  have hovN : (s : Int) + (((E - s) / B + 1 : Nat) : Int) * (B : Int) < 2 ^ 63 := by
    have hc' : ((E : Int) - (s : Int)) = ((E - s : Nat) : Int) := by omega
    rw [hc'] at hov
    push_cast
    exact hov
  obtain ⟨heq, hlen, hbounds⟩ :=
    segmentLoop_eq_runBounds accNos p draw B E hB1 hE hEl fuel s [] hsE hf hovN
  have hrun : distributeSegment fuel accNos (B : Int) p draw =
      runBounds accNos p draw
        (segmentBounds (B : Int) p fuel p.startIdx (p.startIdx + (B : Int))) [] := by
    unfold distributeSegment
    simp only [hs, wrapInt64_eq ((s : Int) + (B : Int)) (by omega) (by omega)]
    exact heq
  refine ⟨?_, ?_, hrun, ?_, ?_⟩
  · rw [hs, hlen]
    conv_rhs => rw [hE, hc]
    push_cast; rfl
  · intro ce hce
    rw [hs] at hce ⊢
    exact hbounds ce hce
  · rw [hrun]; exact runBounds_ne_fuel _ _ _ _ _
  · intro hpanic
    by_contra hno
    have hwf : ∀ a ∈ (accNos.drop s).take (E - s), (userId a).isSome = true := by
      intro a ha
      rw [Option.isSome_iff_ne_none]
      intro hnone
      apply hno
      refine ⟨a, ?_, hnone⟩
      rw [hs, hE, e1, e2]; exact ha
    obtain ⟨bs, hbs, _⟩ := segmentLoop_spec accNos p draw B E hB1 hE hEl fuel s [] hsE hf hovN hwf
    unfold distributeSegment at hpanic
    simp only [hs, wrapInt64_eq ((s : Int) + (B : Int)) (by omega) (by omega)] at hpanic
    rw [hbs] at hpanic
    cases hpanic

/-- Witness of C13: ten identifiers, one segment over `[0, 10)`, batches of four. -/
theorem segmentLoop_total_witness :
    ((distributeBounds 4 (gotoSegment 0 10) 3).length : Int)
      = ((gotoSegment 0 10).endIdx - (gotoSegment 0 10).startIdx) / 4 + 1 ∧
    (∀ ce ∈ distributeBounds 4 (gotoSegment 0 10) 3,
      (gotoSegment 0 10).startIdx ≤ ce.1 ∧ ce.1 ≤ ce.2 ∧ ce.2 ≤ (gotoSegment 0 10).endIdx ∧
        (goSlice accNos10 ce.1 ce.2).isSome = true) ∧
    distributeSegment 3 accNos10 4 (gotoSegment 0 10) midRowDraws =
      runBounds accNos10 (gotoSegment 0 10) midRowDraws
        (distributeBounds 4 (gotoSegment 0 10) 3) [] ∧
    distributeSegment 3 accNos10 4 (gotoSegment 0 10) midRowDraws ≠ .error Fault.fuel ∧
    (distributeSegment 3 accNos10 4 (gotoSegment 0 10) midRowDraws = .error Fault.panic →
      ∃ a ∈ (accNos10.drop (gotoSegment 0 10).startIdx.toNat).take
          ((gotoSegment 0 10).endIdx - (gotoSegment 0 10).startIdx).toNat,
        userId a = none) :=
  segmentLoop_total accNos10 (gotoSegment 0 10) 4 midRowDraws 3
    (by decide) (by decide) (by decide) (by decide) (by decide) (by decide)

/-- C13 as stated fails when `currIdx + batchRow` leaves the range of `int`: for the segment
`[5, 10)` over ten well-formed identifiers and `batchRow = 9223372036854775807` every
condition of the claim holds, yet the first iteration has `currIdx = 5` and
`endIdx = -9223372036854775804`, so `currIdx ≤ endIdx` fails, the slice is out of range and
`distribute` panics. -/
theorem segmentLoop_total_counterexample :
    (0 ≤ (gotoSegment 5 10).startIdx ∧ (gotoSegment 5 10).startIdx ≤ (gotoSegment 5 10).endIdx ∧
      (gotoSegment 5 10).endIdx ≤ (accNos10.length : Int) ∧ 1 ≤ maxInt64) ∧
    (∀ fuel : Nat, (distributeBounds maxInt64 (gotoSegment 5 10) (fuel + 1)).head? =
      some (5, -9223372036854775804)) ∧
    ¬ ((5 : Int) ≤ -9223372036854775804) ∧
    goSlice accNos10 5 (-9223372036854775804) = none ∧
    (∀ a ∈ accNos10, (userId a).isSome = true) ∧
    ∀ fuel : Nat, distributeSegment (fuel + 1) accNos10 maxInt64 (gotoSegment 5 10) midRowDraws
      = .error Fault.panic := by
  refine ⟨by decide, ?_, by decide, by decide, by decide, ?_⟩
  · intro fuel; rfl
  · intro fuel; rfl

end Seeder

/-! ### Fill mode -/

namespace Seeder

/-- The batch of index `i` on a non-empty pool of well-formed identifiers: `batchRow` rows,
all with the identifier `accNos[i % len]`. -/
theorem fillBatch_spec (accNos : List String) (batchRow : Int) (draw : Nat → Nat → FillDraws)
    (hne : accNos ≠ []) (hwf : ∀ a ∈ accNos, (userId a).isSome = true) (i : Nat) :
    ∃ a b, accNos[i % accNos.length]? = some a ∧ fillBatch accNos batchRow draw i = some b ∧
      b.length = batchRow.toNat ∧ ∀ row ∈ b, row.AccNo = a := by
  have hlen : 0 < accNos.length := List.length_pos.mpr hne
  have hi : i % accNos.length < accNos.length := Nat.mod_lt _ hlen
  obtain ⟨a, ha⟩ := getElem?_of_lt_length accNos _ hi
  obtain ⟨uid, huid⟩ := Option.isSome_iff_exists.mp (hwf a (List.getElem?_mem ha))
  refine ⟨a, (List.range batchRow.toNat).map (fun j => fillRow uid a (draw i j)), ha,
    ?_, ?_, ?_⟩
  · unfold fillBatch
    simp only [if_neg (Nat.pos_iff_ne_zero.mp hlen), ha, huid]
  · simp
  · intro row hrow
    simp only [List.mem_map] at hrow
    obtain ⟨j, _, rfl⟩ := hrow
    rfl

/-- The outer loop over the indices `is` submits the batch of each index, in order. -/
theorem fillLoop_spec (accNos : List String) (batchRow : Int) (draw : Nat → Nat → FillDraws)
    (hne : accNos ≠ []) (hwf : ∀ a ∈ accNos, (userId a).isSome = true) :
    ∀ (is : List Nat) (acc : List (List UserData)),
      ∃ bs, fillLoop accNos batchRow draw is acc = some (acc ++ bs) ∧
        bs.length = is.length ∧
        ∀ (k i : Nat), is[k]? = some i → ∃ b, bs[k]? = some b ∧
          fillBatch accNos batchRow draw i = some b := by
  intro is
  induction is with
  | nil => intro acc; exact ⟨[], by simp [fillLoop], rfl, by simp⟩
  | cons i rest ih =>
    intro acc
    obtain ⟨a, b, _, hb, _, _⟩ := fillBatch_spec accNos batchRow draw hne hwf i
    obtain ⟨bs, hbs, hlen, hget⟩ := ih (acc ++ [b])
    refine ⟨b :: bs, ?_, ?_, ?_⟩
    · simp only [fillLoop, hb, hbs]
      simp
    · simp [hlen]
    · intro k j hk
      cases k with
      | zero =>
        simp only [List.getElem?_cons_zero, Option.some.injEq] at hk
        subst hk
        exact ⟨b, by simp, hb⟩
      | succ k =>
        simp only [List.getElem?_cons_succ] at hk
        obtain ⟨b', hb', hfb⟩ := hget k j hk
        exact ⟨b', by simpa using hb', hfb⟩

/-- C11: in fill mode, for a non-empty pool of identifiers (each with a numeric user id)
and `batchRow = B ≥ 1`, `genRandomDummyData` returns normally; batch `i` (0-based) consists
of exactly `B` rows, all carrying the one identifier `pool[i mod len(pool)]`, and the rows
generated in all number (number of batches) times `B`.  The number of batches is the value
of `numIter`. -/
theorem genRandomDummyData_batches (accNos : List String) (amount batchRow : Int)
    (draw : Nat → Nat → FillDraws) (hne : accNos ≠ []) (hB : 1 ≤ batchRow)
    (hwf : ∀ a ∈ accNos, (userId a).isSome = true) :
    ∃ batches, genRandomDummyData accNos amount batchRow draw = some batches ∧
      batches.length = (Int.tdiv amount batchRow + Int.tmod amount batchRow).toNat ∧
      (∀ (i : Nat) (b : List UserData), batches[i]? = some b →
        (b.length : Int) = batchRow ∧
          ∃ a, accNos[i % accNos.length]? = some a ∧ ∀ row ∈ b, row.AccNo = a) ∧
      ((batches.flatten).length : Int) = (batches.length : Int) * batchRow := by
  have hB0 : batchRow ≠ 0 := by omega
  obtain ⟨bs, hbs, hlen, hget⟩ := fillLoop_spec accNos batchRow draw hne hwf
    (List.range (Int.tdiv amount batchRow + Int.tmod amount batchRow).toNat) []
  have hbatch : ∀ (i : Nat) (b : List UserData), bs[i]? = some b →
      b.length = batchRow.toNat ∧
        ∃ a, accNos[i % accNos.length]? = some a ∧ ∀ row ∈ b, row.AccNo = a := by
    intro i b hb
    have hi : i < bs.length := (List.getElem?_eq_some.mp hb).1
    rw [hlen, List.length_range] at hi
    obtain ⟨b', hb', hfb⟩ := hget i i (by rw [List.getElem?_range hi])
    rw [hb] at hb'
    obtain rfl : b = b' := Option.some.inj hb'
    obtain ⟨a, b'', ha, hb'', hl, hrows⟩ := fillBatch_spec accNos batchRow draw hne hwf i
    rw [hfb] at hb''
    obtain rfl : b = b'' := Option.some.inj hb''
    exact ⟨hl, a, ha, hrows⟩
  refine ⟨bs, ?_, ?_, ?_, ?_⟩
  · unfold genRandomDummyData numIter
    simp only [if_neg hB0]
    simpa using hbs
  · rw [hlen, List.length_range]
  · intro i b hb
    obtain ⟨hl, rest⟩ := hbatch i b hb
    refine ⟨?_, rest⟩
    rw [hl]; omega
  · have hall : ∀ l ∈ bs, l.length = batchRow.toNat := by
      intro l hl
      obtain ⟨i, hi⟩ := List.mem_iff_getElem?.mp hl
      exact (hbatch i l hi).1
    rw [flatten_length_of_forall bs batchRow.toNat hall]
    push_cast
    have : ((batchRow.toNat : Nat) : Int) = batchRow := by omega
    rw [this]

/-- Witness of C11: a pool of ten identifiers, `amount = 12`, batches of four. -/
theorem genRandomDummyData_batches_witness :
    ∃ batches, genRandomDummyData accNos10 12 4 midFillDraws = some batches ∧
      batches.length = (Int.tdiv 12 4 + Int.tmod 12 4).toNat ∧
      (∀ (i : Nat) (b : List UserData), batches[i]? = some b →
        (b.length : Int) = 4 ∧
          ∃ a, accNos10[i % accNos10.length]? = some a ∧ ∀ row ∈ b, row.AccNo = a) ∧
      ((batches.flatten).length : Int) = (batches.length : Int) * 4 :=
  genRandomDummyData_batches accNos10 12 4 midFillDraws (by decide) (by decide) (by decide)

end Seeder

/-! ### The percentile index in `float64` -/

namespace Reader

/-- For a whole-number rank up to 100 and fewer than `2 ^ 46` samples the `float64`
evaluation of the index expression gives the exact ceiling. -/
theorem floatIndex_eq (n k : ℕ) (hn : n < 2 ^ 46) (hk : k ≤ 100) :
    ⌈roundFloat64 (roundFloat64 (roundFloat64 (n : ℚ) * (k : ℚ)) / 100)⌉
      = ⌈(n : ℚ) * (k : ℚ) / 100⌉ := by
  rw [roundFloat64_natCast n (by omega)]
  have hnk : n * k < 100 * 2 ^ 46 := by
    calc n * k ≤ n * 100 := Nat.mul_le_mul_left n hk
      _ < 2 ^ 46 * 100 := Nat.mul_lt_mul_of_pos_right hn (by norm_num)
      _ = 100 * 2 ^ 46 := Nat.mul_comm _ _
  have hcast : (n : ℚ) * (k : ℚ) = ((n * k : ℕ) : ℚ) := by push_cast; rfl
  rw [hcast, roundFloat64_natCast (n * k) (by omega), ceil_roundFloat64_div (n * k) hnk]

/-- C1 (amended): for a non-empty sample sequence `S` of `N` values and a `float64` rank `p`
with `0 ≤ p ≤ 100`, `calculatePercentile` does not panic and returns the sample at the
1-indexed rank `ceil(fl(fl(fl(N)·p)/100))` clamped to `[1, N]`, where `fl` rounds to
`float64` as the source does at each operation.  When `p` is a whole number and `N < 2 ^ 46`
this rank is the nearest rank `ceil(N·p/100)` clamped to `[1, N]` (so for the ranks
0, 50, 90, 99 and 100), and the `float64` evaluation agrees with the exact one. -/
theorem calculatePercentileFloat_nearest_rank (S : List ℚ) (p : ℚ) (hS : S ≠ [])
    (h0 : 0 ≤ p) (_h100 : p ≤ 100) :
    (1 ≤ nearestRankFloat S.length p ∧ nearestRankFloat S.length p ≤ (S.length : Int) ∧
      ∃ x, S[(nearestRankFloat S.length p - 1).toNat]? = some x ∧
        calculatePercentileFloat S p = some (F64.fin x)) ∧
    (∀ k : ℕ, p = (k : ℚ) → S.length < 2 ^ 46 →
      nearestRankFloat S.length p = nearestRank S.length p ∧
      calculatePercentileFloat S p = calculatePercentile S p ∧
      ∃ x, S[(nearestRank S.length p - 1).toNat]? = some x ∧
        calculatePercentileFloat S p = some (F64.fin x)) := by
  have hlen : 0 < S.length := List.length_pos.mpr hS
  have hidx0 : (0 : Int) ≤
      ⌈roundFloat64 (roundFloat64 (roundFloat64 (S.length : ℚ) * p) / 100)⌉ := by
    apply Int.ceil_nonneg
    apply roundFloat64_nonneg
    apply div_nonneg _ (by norm_num)
    apply roundFloat64_nonneg
    apply mul_nonneg _ h0
    apply roundFloat64_nonneg
    positivity
  have hgen := pick_clamped S _ hS hidx0
  have hunf : calculatePercentileFloat S p =
      (if ⌈roundFloat64 (roundFloat64 (roundFloat64 (S.length : ℚ) * p) / 100)⌉ = 0
        then (S[0]?).map F64.fin
        else if ⌈roundFloat64 (roundFloat64 (roundFloat64 (S.length : ℚ) * p) / 100)⌉
            ≥ (S.length : Int) then (S[S.length - 1]?).map F64.fin
        else if ⌈roundFloat64 (roundFloat64 (roundFloat64 (S.length : ℚ) * p) / 100)⌉ - 1 < 0
          then none
        else (S[(⌈roundFloat64 (roundFloat64 (roundFloat64 (S.length : ℚ) * p) / 100)⌉
          - 1).toNat]?).map F64.fin) := by
    unfold calculatePercentileFloat
    rw [if_neg (by omega)]
  have hfirst : 1 ≤ nearestRankFloat S.length p ∧
      nearestRankFloat S.length p ≤ (S.length : Int) ∧
      ∃ x, S[(nearestRankFloat S.length p - 1).toNat]? = some x ∧
        calculatePercentileFloat S p = some (F64.fin x) := by
    rw [hunf]
    exact hgen
  refine ⟨hfirst, ?_⟩
  intro k hk hN
  subst hk
  have hk100 : k ≤ 100 := by exact_mod_cast _h100
  have hidx := floatIndex_eq S.length k hN hk100
  have hrank : nearestRankFloat S.length (k : ℚ) = nearestRank S.length (k : ℚ) := by
    unfold nearestRankFloat nearestRank
    rw [hidx]
  have hcalc : calculatePercentileFloat S (k : ℚ) = calculatePercentile S (k : ℚ) := by
    unfold calculatePercentileFloat calculatePercentile
    simp only [hidx]
  refine ⟨hrank, hcalc, ?_⟩
  rw [← hrank]
  exact hfirst.2.2


/-- Witness of C1 (amended) at `S = [1, 2, 3, 4]`, `p = 50`. -/
theorem calculatePercentileFloat_nearest_rank_witness :
    (1 ≤ nearestRankFloat ([1, 2, 3, 4] : List ℚ).length 50 ∧
      nearestRankFloat ([1, 2, 3, 4] : List ℚ).length 50 ≤ (([1, 2, 3, 4] : List ℚ).length : Int) ∧
      ∃ x, ([1, 2, 3, 4] : List ℚ)[(nearestRankFloat ([1, 2, 3, 4] : List ℚ).length 50
          - 1).toNat]? = some x ∧
        calculatePercentileFloat [1, 2, 3, 4] 50 = some (F64.fin x)) ∧
    (nearestRankFloat ([1, 2, 3, 4] : List ℚ).length 50
        = nearestRank ([1, 2, 3, 4] : List ℚ).length 50 ∧
      calculatePercentileFloat [1, 2, 3, 4] 50 = calculatePercentile [1, 2, 3, 4] 50 ∧
      ∃ x, ([1, 2, 3, 4] : List ℚ)[(nearestRank ([1, 2, 3, 4] : List ℚ).length 50 - 1).toNat]?
          = some x ∧
        calculatePercentileFloat [1, 2, 3, 4] 50 = some (F64.fin x)) :=
  ⟨(calculatePercentileFloat_nearest_rank [1, 2, 3, 4] 50 (by simp) (by norm_num)
      (by norm_num)).1,
    (calculatePercentileFloat_nearest_rank [1, 2, 3, 4] 50 (by simp) (by norm_num)
      (by norm_num)).2 50 (by norm_num) (by norm_num)⟩

/-- The list `samples125` has 125 elements. -/
theorem samples125_length : samples125.length = 125 := by
  unfold samples125
  rw [List.length_map, List.length_range]

theorem samples125_getElem? (i : Nat) (hi : i < 125) : samples125[i]? = some (i : ℚ) := by
  unfold samples125
  rw [List.getElem?_map, List.getElem?_range hi]
  rfl

theorem samples125_sorted : samples125.Sorted (fun a b => a ≤ b) := by
  show List.Pairwise (fun a b : ℚ => a ≤ b) (List.map (fun i : ℕ => (i : ℚ)) (List.range 125))
  rw [List.pairwise_map]
  exact (List.pairwise_lt_range 125).imp (fun h => by exact_mod_cast le_of_lt h)

/-- The rank `rank08` is a `float64` value. -/
theorem rank08_float : roundFloat64 rank08 = rank08 := by
  have h := roundFloat64_of_close rank08 (-1) 7205759403792794
    (by norm_num [rank08]) (by norm_num [rank08]) (by norm_num) (by norm_num [rank08])
  rw [h]; norm_num [rank08]

/-- In `float64`, `125 · 0.8` is `100.0`: the excess of `0.8` is rounded away. -/
theorem rank08_product : roundFloat64 (roundFloat64 (125 : ℚ) * rank08) = 100 := by
  have h125 : roundFloat64 (125 : ℚ) = 125 := by
    have := roundFloat64_natCast 125 (by norm_num)
    simpa using this
  rw [h125]
  have h := roundFloat64_of_close (125 * rank08) 6 7036874417766400
    (by norm_num [rank08]) (by norm_num [rank08]) (by norm_num)
    (by norm_num [rank08, abs_lt])
  rw [h]; norm_num

theorem rank08_index :
    ⌈roundFloat64 (roundFloat64 (roundFloat64 (125 : ℚ) * rank08) / 100)⌉ = 1 := by
  rw [rank08_product]
  have h1 : roundFloat64 ((100 : ℚ) / 100) = 1 := by
    have := roundFloat64_natCast 1 (by norm_num)
    simpa using this
  rw [h1]; simp

/-- C1 as stated fails for a rank that is not a whole number: for the ascending samples
`0, 1, ..., 124` and the `float64` rank `0.8`, `ceil(N·p/100) = ceil(1.00000000000000005...)`
is 2, so the claim names the sample `S[1] = 1`, but the product `125 · p` rounds to `100.0`,
the quotient is `1.0`, the rank the source computes is 1 and it returns `S[0] = 0`. -/
theorem calculatePercentileFloat_counterexample :
    samples125 ≠ [] ∧ samples125.Sorted (fun a b => a ≤ b) ∧ samples125.length = 125 ∧
    (0 ≤ rank08 ∧ rank08 ≤ 100) ∧ roundFloat64 rank08 = rank08 ∧
    ⌈(samples125.length : ℚ) * rank08 / 100⌉ = 2 ∧
    nearestRank samples125.length rank08 = 2 ∧
    samples125[(nearestRank samples125.length rank08 - 1).toNat]? = some 1 ∧
    nearestRankFloat samples125.length rank08 = 1 ∧
    calculatePercentileFloat samples125 rank08 = some (F64.fin 0) := by
  have hlen := samples125_length
  have hceil : ⌈(samples125.length : ℚ) * rank08 / 100⌉ = 2 := by
    rw [hlen, Int.ceil_eq_iff]; norm_num [rank08]
  have hrank : nearestRank samples125.length rank08 = 2 := by
    unfold nearestRank
    rw [hceil, hlen]; decide
  have hidx : ⌈roundFloat64 (roundFloat64 (roundFloat64 (samples125.length : ℚ) * rank08)
      / 100)⌉ = 1 := by
    rw [hlen]; exact_mod_cast rank08_index
  refine ⟨?_, samples125_sorted, hlen, ⟨by norm_num [rank08], by norm_num [rank08]⟩,
    rank08_float, hceil, hrank, ?_, ?_, ?_⟩
  · intro h; rw [h] at hlen; simp at hlen
  · rw [hrank]
    have := samples125_getElem? 1 (by norm_num)
    simpa using this
  · unfold nearestRankFloat
    rw [hidx, hlen]; decide
  · unfold calculatePercentileFloat
    rw [if_neg (by rw [hlen]; decide)]
    simp only [hidx]
    rw [hlen]
    have := samples125_getElem? 0 (by norm_num)
    simp [this]

end Reader

/-! ### Monotonicity of the percentile -/

namespace Reader

/-- C12 as stated fails in a run that records no sample: with two workers and
`samplingCount = 0` every worker finishes, the reported `p50`, `p90` and `p99` are all
not-a-number, and neither `p50 <= p90` nor `p90 <= p99` holds. -/
theorem calculatePercentile_monotone_counterexample :
    (runMerges twoByZero tenMillis (sequentialSchedule twoByZero)).allDone = true ∧
    ∃ r, runEach twoByZero tenMillis (sequentialSchedule twoByZero) = some r ∧
      r.p50 = F64.nan ∧ r.p90 = F64.nan ∧ r.p99 = F64.nan ∧
      F64.le r.p50 r.p90 = false ∧ F64.le r.p90 r.p99 = false := by
  have hdone : (runMerges twoByZero tenMillis (sequentialSchedule twoByZero)).allDone = true := by
    decide
  obtain ⟨r, hr, h50, h90, h99⟩ := runEach_no_samples twoByZero tenMillis
    (sequentialSchedule twoByZero) (Or.inr (by decide)) hdone
  refine ⟨hdone, r, hr, h50, h90, h99, ?_, ?_⟩
  · rw [h50, h90]; rfl
  · rw [h90, h99]; rfl

/-- C12 (amended): `calculatePercentile` is monotone in the rank on ascending input: for a
non-empty ascending `S` and `0 ≤ p ≤ q ≤ 100` both calls return a sample and the one for `p`
is at most the one for `q`, with the index taken exactly and equally with the index computed
in `float64` as the source computes it.  A complete run exists for every parameter set; in
every complete run with `routineCount ≥ 1` and `samplingCount ≥ 1` the reported `p50`,
`p90`, `p99` are samples with `p50 <= p90 <= p99`; in a complete run with
`routineCount ≤ 0` or `samplingCount ≤ 0` no sample is recorded, the three are not-a-number
and the comparisons are false. -/
theorem calculatePercentile_monotone :
    (∀ (S : List ℚ) (p q : ℚ), S ≠ [] → S.Sorted (fun a b => a ≤ b) → 0 ≤ p → p ≤ q →
      q ≤ 100 →
      (∃ x y, calculatePercentile S p = some (F64.fin x) ∧
        calculatePercentile S q = some (F64.fin y) ∧ x ≤ y) ∧
      (∃ x y, calculatePercentileFloat S p = some (F64.fin x) ∧
        calculatePercentileFloat S q = some (F64.fin y) ∧ x ≤ y)) ∧
    (∀ (opt : analyzeParam) (micros : Nat → Nat → Nat → Int),
      (runMerges opt micros (sequentialSchedule opt)).allDone = true) ∧
    (∀ (opt : analyzeParam) (micros : Nat → Nat → Nat → Int) (sched : List Nat),
      1 ≤ opt.routineCount → 1 ≤ opt.samplingCount →
      (runMerges opt micros sched).allDone = true →
      ∃ r a b c, runEach opt micros sched = some r ∧ r.p50 = F64.fin a ∧
        r.p90 = F64.fin b ∧ r.p99 = F64.fin c ∧ a ≤ b ∧ b ≤ c ∧
        F64.le r.p50 r.p90 = true ∧ F64.le r.p90 r.p99 = true) ∧
    (∀ (opt : analyzeParam) (micros : Nat → Nat → Nat → Int) (sched : List Nat),
      (opt.routineCount ≤ 0 ∨ opt.samplingCount ≤ 0) →
      (runMerges opt micros sched).allDone = true →
      ∃ r, runEach opt micros sched = some r ∧ r.p50 = F64.nan ∧ r.p90 = F64.nan ∧
        r.p99 = F64.nan ∧ F64.le r.p50 r.p90 = false ∧ F64.le r.p90 r.p99 = false) := by
  refine ⟨fun S p q hS hasc h0 hpq _ =>
      ⟨calculatePercentile_mono_aux S p q hS hasc h0 hpq,
        calculatePercentileFloat_mono_aux S p q hS hasc h0 hpq⟩,
    fun opt micros => sequentialSchedule_allDone opt micros, ?_, ?_⟩
  · intro opt micros sched hW hK hdone
    obtain ⟨r, a, b, c, hr, h50, h90, h99, hab, hbc⟩ :=
      runEach_percentiles_ordered opt micros sched hW hK hdone
    refine ⟨r, a, b, c, hr, h50, h90, h99, hab, hbc, ?_, ?_⟩
    · rw [h50, h90]; simpa [F64.le] using hab
    · rw [h90, h99]; simpa [F64.le] using hbc
  · intro opt micros sched h0 hdone
    obtain ⟨r, hr, h50, h90, h99⟩ := runEach_no_samples opt micros sched h0 hdone
    refine ⟨r, hr, h50, h90, h99, ?_, ?_⟩
    · rw [h50, h90]; rfl
    · rw [h90, h99]; rfl

/-- Witness of C12 (amended) at `S = [1, 2, 3]`, `p = 50`, `q = 90`, at the run of two
workers with five samples each, and at the run of two workers without samples. -/
theorem calculatePercentile_monotone_witness :
    ((∃ x y, calculatePercentile [1, 2, 3] 50 = some (F64.fin x) ∧
        calculatePercentile [1, 2, 3] 90 = some (F64.fin y) ∧ x ≤ y) ∧
      (∃ x y, calculatePercentileFloat [1, 2, 3] 50 = some (F64.fin x) ∧
        calculatePercentileFloat [1, 2, 3] 90 = some (F64.fin y) ∧ x ≤ y)) ∧
    (runMerges twoByFive tenMillis (sequentialSchedule twoByFive)).allDone = true ∧
    (∃ r a b c, runEach twoByFive tenMillis (sequentialSchedule twoByFive) = some r ∧
        r.p50 = F64.fin a ∧ r.p90 = F64.fin b ∧ r.p99 = F64.fin c ∧ a ≤ b ∧ b ≤ c ∧
        F64.le r.p50 r.p90 = true ∧ F64.le r.p90 r.p99 = true) ∧
    (∃ r, runEach twoByZero tenMillis (sequentialSchedule twoByZero) = some r ∧
        r.p50 = F64.nan ∧ r.p90 = F64.nan ∧ r.p99 = F64.nan ∧
        F64.le r.p50 r.p90 = false ∧ F64.le r.p90 r.p99 = false) :=
  ⟨calculatePercentile_monotone.1 [1, 2, 3] 50 90 (by simp) (by norm_num [List.Sorted])
      (by norm_num) (by norm_num) (by norm_num),
    calculatePercentile_monotone.2.1 twoByFive tenMillis,
    calculatePercentile_monotone.2.2.1 twoByFive tenMillis (sequentialSchedule twoByFive)
      (by decide) (by decide) (by decide),
    calculatePercentile_monotone.2.2.2 twoByZero tenMillis (sequentialSchedule twoByZero)
      (Or.inr (by decide)) (by decide)⟩

end Reader
